import Mathlib

/-!
Verification of the trust-ledger / routing core of `scratch/sixg-wigig-sim.cc`
(6G-MANET-Blockchain repository).

Shallow embedding conventions:
* C++ `double` arithmetic is modelled by `ℚ` (the ledger only multiplies by the
  constants 0.3, 0.5, 0.7 and compares/maxes, so the real-number semantics is
  captured exactly).
* `std::map<std::pair<uint32_t,uint32_t>, LinkMetric>` is modelled by an
  association list with first-match lookup and in-place insert; iteration is
  only ever used for order-independent counting (`IsBlackhole`).
* `uint32_t` node ids are `ℕ`; `UINT32_MAX` is the explicit constant 2^32 - 1.
* global counters (`g_trustPenalties`, ...) are threaded through explicit state
  records.
-/

namespace SixG

/-- `LinkMetric` (sixg-wigig-sim.cc lines 53-59): per-link record with a moving
average SNR, a drop counter and a trust value initialised to 1.0. -/
structure LinkMetric where
  movingAvgSnr : ℚ
  drops : ℕ
  trust : ℚ
  deriving DecidableEq

/-- Default-constructed `LinkMetric()`: `movingAvgSnr = 0.0`, `drops = 0`,
`trust = 1.0`. -/
def LinkMetric.init : LinkMetric := ⟨0, 0, 1⟩

/-- Ledger keys are pairs of node ids. -/
abbrev Key := ℕ × ℕ

/-- `BlockchainLedger::MakeKey` (line 188): the unordered pair
`(min a b, max a b)`. -/
def MakeKey (a b : ℕ) : Key := (min a b, max a b)

/-- The ledger map `m_ledger`, modelled as an association list. -/
abbrev Ledger := List (Key × LinkMetric)

/-- Model of `m_ledger.find(key)`: first entry with the given key. -/
def ledgerFind : Ledger → Key → Option LinkMetric
  | [], _ => none
  | e :: rest, k => if e.1 = k then some e.2 else ledgerFind rest k

/-- Model of `m_ledger[key] = m`: replace the entry for `key`, or append it. -/
def ledgerInsert : Ledger → Key → LinkMetric → Ledger
  | [], k, m => [(k, m)]
  | e :: rest, k, m => if e.1 = k then (k, m) :: rest else e :: ledgerInsert rest k m

/-- Ledger state: the map plus the global counter `g_trustPenalties`, which is
mutated only by `UpdateMetric`. -/
structure LedgerState where
  ledger : Ledger
  trustPenalties : ℕ
  deriving DecidableEq

/-- Freshly constructed ledger with counters reset (start of `main`). -/
def LedgerState.init : LedgerState := ⟨[], 0⟩

/-- The per-record body of `BlockchainLedger::UpdateMetric` (lines 80-113):
EMA update of the SNR when `snr > 0`, then the drop/trust branch. -/
def updateRecord (snr : ℚ) (isDrop useBlockchain : Bool) (m : LinkMetric) : LinkMetric :=
  let m1 := if 0 < snr then
      { m with movingAvgSnr := (3/10 : ℚ) * snr + (1 - 3/10) * m.movingAvgSnr }
    else m
  if isDrop && useBlockchain then
    { m1 with drops := m1.drops + 1, trust := max (3/10) (m1.trust * (1/2)) }
  else if isDrop then
    { m1 with drops := m1.drops + 1 }
  else m1

/-- `BlockchainLedger::UpdateMetric` (lines 68-114): materialise the record for
the unordered key if absent, update it, and bump `g_trustPenalties` on a
penalised drop. -/
def UpdateMetric (st : LedgerState) (src dst : ℕ) (snr : ℚ) (isDrop : Bool)
    (useBlockchain : Bool := true) : LedgerState :=
  let key := MakeKey src dst
  let metric := (ledgerFind st.ledger key).getD LinkMetric.init
  { ledger := ledgerInsert st.ledger key (updateRecord snr isDrop useBlockchain metric)
    trustPenalties :=
      if isDrop && useBlockchain then st.trustPenalties + 1 else st.trustPenalties }

/-- `BlockchainLedger::GetTrust` (lines 126-138): stored trust, or the default
`m_defaultTrust = 1.0` for an unseen pair. -/
def GetTrust (st : LedgerState) (src dst : ℕ) : ℚ :=
  match ledgerFind st.ledger (MakeKey src dst) with
  | some m => m.trust
  | none => 1

/-- `BlockchainLedger::GetSnr` (lines 140-147): stored moving average if
positive, otherwise the default `m_defaultSnr = 20.0`. -/
def GetSnr (st : LedgerState) (src dst : ℕ) : ℚ :=
  match ledgerFind st.ledger (MakeKey src dst) with
  | some m => if 0 < m.movingAvgSnr then m.movingAvgSnr else 20
  | none => 20

/-- `BlockchainLedger::IsBlackhole` (lines 149-175): a node is classified a
blackhole iff it has incident ledger entries and the fraction of them with
`trust < 0.3` exceeds `0.5`. -/
def IsBlackhole (st : LedgerState) (nodeId : ℕ) : Bool :=
  let incident := st.ledger.filter (fun e => decide (e.1.1 = nodeId) || decide (e.1.2 = nodeId))
  let totalLinks := incident.length
  let lowTrustLinks := (incident.filter (fun e => decide (e.2.trust < 3/10))).length
  decide (0 < totalLinks) && decide ((1 : ℚ)/2 < (lowTrustLinks : ℚ) / (totalLinks : ℚ))

/-- One recorded call to `UpdateMetric` with all of its arguments. -/
structure UpdateCall where
  src : ℕ
  dst : ℕ
  snr : ℚ
  isDrop : Bool
  useBlockchain : Bool
  deriving DecidableEq

/-- Apply a sequence of `UpdateMetric` calls in order. -/
def applyCalls (st : LedgerState) (cs : List UpdateCall) : LedgerState :=
  cs.foldl (fun s c => UpdateMetric s c.src c.dst c.snr c.isDrop c.useBlockchain) st

/-- Trust stored for a key, or the default 1.0 (the value `GetTrust` reads). -/
def trustAt (st : LedgerState) (k : Key) : ℚ :=
  match ledgerFind st.ledger k with
  | some m => m.trust
  | none => 1

/-- Moving-average SNR stored for a key, or the initial 0.0. -/
def avgAt (st : LedgerState) (k : Key) : ℚ :=
  match ledgerFind st.ledger k with
  | some m => m.movingAvgSnr
  | none => 0

/-! Basic lemmas about the ledger map operations. -/

theorem ledgerFind_insert (L : Ledger) (k : Key) (m : LinkMetric) (k' : Key) :
    ledgerFind (ledgerInsert L k m) k' = if k = k' then some m else ledgerFind L k' := by
  induction L with
  | nil => simp [ledgerInsert, ledgerFind]
  | cons e rest ih =>
    by_cases hek : e.1 = k
    · by_cases hkk : k = k'
      · simp [ledgerInsert, ledgerFind, hek, hkk]
      · have he' : ¬ e.1 = k' := by rw [hek]; exact hkk
        simp [ledgerInsert, ledgerFind, hek, hkk, he']
    · have hins : ledgerInsert (e :: rest) k m = e :: ledgerInsert rest k m := by
        simp [ledgerInsert, hek]
      rw [hins]
      by_cases he' : e.1 = k'
      · have hkk : ¬ k = k' := fun h => hek (h ▸ he')
        simp [ledgerFind, he', hkk]
      · simp [ledgerFind, he', ih]

theorem mem_ledgerInsert {L : Ledger} {k : Key} {m : LinkMetric} {e : Key × LinkMetric}
    (h : e ∈ ledgerInsert L k m) : e = (k, m) ∨ e ∈ L := by
  induction L with
  | nil => simpa [ledgerInsert] using h
  | cons e' rest ih =>
    by_cases hek : e'.1 = k
    · simp only [ledgerInsert, hek, if_pos, List.mem_cons] at h
      rcases h with h | h
      · exact Or.inl h
      · exact Or.inr (List.mem_cons_of_mem _ h)
    · simp only [ledgerInsert, hek, if_neg, not_false_iff, List.mem_cons] at h
      rcases h with h | h
      · exact Or.inr (by simp [h])
      · rcases ih h with h' | h'
        · exact Or.inl h'
        · exact Or.inr (List.mem_cons_of_mem _ h')

theorem ledgerFind_mem {L : Ledger} {k : Key} {m : LinkMetric}
    (h : ledgerFind L k = some m) : (k, m) ∈ L := by
  induction L with
  | nil => simp [ledgerFind] at h
  | cons e rest ih =>
    by_cases hek : e.1 = k
    · simp only [ledgerFind, hek, if_pos] at h
      obtain rfl : e.2 = m := Option.some.inj h
      exact List.mem_cons.mpr (Or.inl (by rw [← hek]))
    · simp only [ledgerFind, hek, if_neg, not_false_iff] at h
      exact List.mem_cons_of_mem _ (ih h)

theorem applyCalls_nil (st : LedgerState) : applyCalls st [] = st := rfl

theorem applyCalls_cons (st : LedgerState) (c : UpdateCall) (cs : List UpdateCall) :
    applyCalls st (c :: cs) =
      applyCalls (UpdateMetric st c.src c.dst c.snr c.isDrop c.useBlockchain) cs := rfl

theorem GetTrust_eq_trustAt (st : LedgerState) (a b : ℕ) :
    GetTrust st a b = trustAt st (MakeKey a b) := rfl

theorem ledgerFind_UpdateMetric_same (st : LedgerState) (a b : ℕ) (snr : ℚ) (d ub : Bool) :
    ledgerFind (UpdateMetric st a b snr d ub).ledger (MakeKey a b) =
      some (updateRecord snr d ub ((ledgerFind st.ledger (MakeKey a b)).getD LinkMetric.init)) := by
  simp [UpdateMetric, ledgerFind_insert]

theorem ledgerFind_UpdateMetric_other (st : LedgerState) (a b : ℕ) (snr : ℚ) (d ub : Bool)
    {k : Key} (hk : k ≠ MakeKey a b) :
    ledgerFind (UpdateMetric st a b snr d ub).ledger k = ledgerFind st.ledger k := by
  simp only [UpdateMetric, ledgerFind_insert]
  rw [if_neg (fun h => hk h.symm)]

theorem UpdateMetric_penalties (st : LedgerState) (a b : ℕ) (snr : ℚ) (d ub : Bool) :
    (UpdateMetric st a b snr d ub).trustPenalties =
      if d && ub then st.trustPenalties + 1 else st.trustPenalties := rfl

theorem updateRecord_trust (snr : ℚ) (d ub : Bool) (m : LinkMetric) :
    (updateRecord snr d ub m).trust =
      if d && ub then max (3/10) (m.trust * (1/2)) else m.trust := by
  cases d <;> cases ub <;> by_cases h : (0:ℚ) < snr <;> simp [updateRecord, h]

theorem updateRecord_drops (snr : ℚ) (d ub : Bool) (m : LinkMetric) :
    (updateRecord snr d ub m).drops = if d then m.drops + 1 else m.drops := by
  cases d <;> cases ub <;> by_cases h : (0:ℚ) < snr <;> simp [updateRecord, h]

theorem updateRecord_avg (snr : ℚ) (d ub : Bool) (m : LinkMetric) :
    (updateRecord snr d ub m).movingAvgSnr =
      if 0 < snr then (3/10 : ℚ) * snr + (1 - 3/10) * m.movingAvgSnr
      else m.movingAvgSnr := by
  cases d <;> cases ub <;> by_cases h : (0:ℚ) < snr <;> simp [updateRecord, h]

/-- Invariant: every stored trust value lies in `[0.3, 1.0]`. -/
def TrustBoundsOk (st : LedgerState) : Prop :=
  ∀ e ∈ st.ledger, (3:ℚ)/10 ≤ e.2.trust ∧ e.2.trust ≤ 1

theorem updateRecord_trust_bounds {m : LinkMetric} (h : (3:ℚ)/10 ≤ m.trust ∧ m.trust ≤ 1)
    (snr : ℚ) (d ub : Bool) :
    (3:ℚ)/10 ≤ (updateRecord snr d ub m).trust ∧ (updateRecord snr d ub m).trust ≤ 1 := by
  rw [updateRecord_trust]
  split
  · refine ⟨le_max_left _ _, max_le (by norm_num) ?_⟩
    linarith [h.1, h.2]
  · exact h

theorem trustBounds_init : TrustBoundsOk LedgerState.init := by
  intro e he
  simp [LedgerState.init] at he

theorem UpdateMetric_bounds {st : LedgerState} (h : TrustBoundsOk st)
    (a b : ℕ) (snr : ℚ) (d ub : Bool) :
    TrustBoundsOk (UpdateMetric st a b snr d ub) := by
  intro e he
  simp only [UpdateMetric] at he
  rcases mem_ledgerInsert he with rfl | he'
  · apply updateRecord_trust_bounds _ snr d ub
    cases hf : ledgerFind st.ledger (MakeKey a b) with
    | none => simp [hf, LinkMetric.init]; norm_num
    | some m0 => simpa [hf] using h _ (ledgerFind_mem hf)
  · exact h e he'

theorem applyCalls_bounds {st : LedgerState} (h : TrustBoundsOk st) (cs : List UpdateCall) :
    TrustBoundsOk (applyCalls st cs) := by
  induction cs generalizing st with
  | nil => exact h
  | cons c cs ih => exact ih (UpdateMetric_bounds h _ _ _ _ _)

/-- C1: Trust bounds invariant: after construction and any sequence of
`UpdateMetric` calls (any src, dst, snr, is_drop, trust_enabled arguments),
every stored trust value satisfies `0.3 ≤ trust ≤ 1.0`, and so does the trust
reported by `GetTrust` for any pair; `0.3` is a hard lower bound. -/
theorem C1_trust_bounds (cs : List UpdateCall) (e : Key × LinkMetric)
    (he : e ∈ (applyCalls LedgerState.init cs).ledger) (a b : ℕ) :
    ((3:ℚ)/10 ≤ e.2.trust ∧ e.2.trust ≤ 1) ∧
    ((3:ℚ)/10 ≤ GetTrust (applyCalls LedgerState.init cs) a b ∧
      GetTrust (applyCalls LedgerState.init cs) a b ≤ 1) := by
  have hB := applyCalls_bounds trustBounds_init cs
  refine ⟨hB e he, ?_⟩
  unfold GetTrust
  cases hf : ledgerFind (applyCalls LedgerState.init cs).ledger (MakeKey a b) with
  | none => norm_num
  | some m => exact hB _ (ledgerFind_mem hf)

/-- A single penalised drop on a fresh link produces the record (0, 1, 0.5). -/
theorem dropRecord_init : updateRecord 0 true true LinkMetric.init = ⟨0, 1, 1/2⟩ := by
  unfold updateRecord LinkMetric.init
  norm_num [max_def]

/-- Witness for C1 at a concrete drop update on link (0,1). -/
theorem C1_trust_bounds_witness :
    (((3:ℚ)/10 ≤ (LinkMetric.mk 0 1 (1/2)).trust ∧ (LinkMetric.mk 0 1 (1/2)).trust ≤ 1) ∧
     ((3:ℚ)/10 ≤ GetTrust (applyCalls LedgerState.init [⟨0, 1, 0, true, true⟩]) 0 1 ∧
       GetTrust (applyCalls LedgerState.init [⟨0, 1, 0, true, true⟩]) 0 1 ≤ 1)) :=
  C1_trust_bounds [⟨0, 1, 0, true, true⟩] ((0, 1), ⟨0, 1, 1/2⟩)
    (by simp [applyCalls, UpdateMetric, ledgerFind, ledgerInsert, MakeKey, dropRecord_init]) 0 1

/-- One trust-decay step `trust ← max(0.3, trust · 0.5)` (line 101). -/
def decayStep (t : ℚ) : ℚ := max (3/10) (t * (1/2))

/-- The trust value after `n` penalised drops starting from the initial 1.0. -/
def decaySeq : ℕ → ℚ
  | 0 => 1
  | n + 1 => decayStep (decaySeq n)

/-- Left-iterated decay steps, matching the order `applyCalls` applies them. -/
def iterDecay : ℕ → ℚ → ℚ
  | 0, t => t
  | n + 1, t => iterDecay n (decayStep t)

theorem iterDecay_succ (n : ℕ) (t : ℚ) : iterDecay (n + 1) t = decayStep (iterDecay n t) := by
  induction n generalizing t with
  | zero => rfl
  | succ k ih =>
    calc iterDecay (k + 2) t = iterDecay (k + 1) (decayStep t) := rfl
      _ = decayStep (iterDecay k (decayStep t)) := ih _
      _ = decayStep (iterDecay (k + 1) t) := rfl

theorem decaySeq_eq_iter (n : ℕ) : decaySeq n = iterDecay n 1 := by
  induction n with
  | zero => rfl
  | succ k ih => rw [decaySeq, ih, ← iterDecay_succ]

theorem trustAt_update_key {c : UpdateCall} {k : Key} (hk : MakeKey c.src c.dst = k)
    (hd : c.isDrop = true) (hb : c.useBlockchain = true) (st : LedgerState) :
    trustAt (UpdateMetric st c.src c.dst c.snr c.isDrop c.useBlockchain) k =
      decayStep (trustAt st k) := by
  have hfind := ledgerFind_UpdateMetric_same st c.src c.dst c.snr c.isDrop c.useBlockchain
  rw [hk] at hfind
  unfold trustAt
  simp only [hd, hb] at hfind ⊢
  cases hf : ledgerFind st.ledger k with
  | none =>
    rw [hf] at hfind
    simp [hfind, updateRecord_trust, LinkMetric.init, decayStep]
  | some m =>
    rw [hf] at hfind
    simp [hfind, updateRecord_trust, decayStep]

theorem trustAt_applyCalls_drops {k : Key} (cs : List UpdateCall)
    (hcs : ∀ c ∈ cs, MakeKey c.src c.dst = k ∧ c.isDrop = true ∧ c.useBlockchain = true) :
    ∀ st, trustAt (applyCalls st cs) k = iterDecay cs.length (trustAt st k) := by
  induction cs with
  | nil => intro st; rfl
  | cons c cs ih =>
    intro st
    obtain ⟨h1, h2, h3⟩ := hcs c (List.mem_cons_self c cs)
    rw [applyCalls_cons, ih (fun c' hc' => hcs c' (List.mem_cons_of_mem _ hc')),
      trustAt_update_key h1 h2 h3]
    rfl

theorem decaySeq_floor (n : ℕ) : (3:ℚ)/10 ≤ decaySeq n := by
  induction n with
  | zero => norm_num [decaySeq]
  | succ k _ => rw [decaySeq]; exact le_max_left _ _

theorem decaySeq_one : decaySeq 1 = 1/2 := by
  show decayStep 1 = 1/2
  rw [decayStep, max_eq_right (by norm_num : (3:ℚ)/10 ≤ 1 * (1/2))]
  norm_num

theorem decayStep_floor : decayStep (3/10) = 3/10 := by
  rw [decayStep, max_eq_left (by norm_num : (3:ℚ)/10 * (1/2) ≤ 3/10)]

theorem decaySeq_floor_exact {n : ℕ} (hn : 2 ≤ n) : decaySeq n = 3/10 := by
  induction n, hn using Nat.le_induction with
  | base =>
    show decayStep (decaySeq 1) = 3/10
    rw [decaySeq_one, decayStep, max_eq_left (by norm_num : (1:ℚ)/2 * (1/2) ≤ 3/10)]
  | succ k _ ih => rw [decaySeq, ih, decayStep_floor]

theorem decaySeq_mono (n : ℕ) : decaySeq (n + 1) ≤ decaySeq n := by
  have hf := decaySeq_floor n
  rw [decaySeq]
  apply max_le hf
  linarith

/-- C2: Floor convergence and decay curve: on one link starting from trust 1.0,
penalised drop updates (`is_drop = true`, `trust_enabled = true`, any snr
arguments) produce exactly the sequence `1.0, 0.5, 0.3, 0.3, ...`, each step
being `trust ← max(0.3, trust · 0.5)`; after two (hence after three or more)
drops the trust is exactly `0.3`, and the sequence is non-increasing. -/
theorem C2_decay_curve (a b : ℕ) (cs : List UpdateCall)
    (hcs : ∀ c ∈ cs, MakeKey c.src c.dst = MakeKey a b ∧ c.isDrop = true ∧
      c.useBlockchain = true) :
    GetTrust (applyCalls LedgerState.init cs) a b = decaySeq cs.length ∧
    decaySeq 0 = 1 ∧ decaySeq 1 = 1/2 ∧
    (∀ n, 2 ≤ n → decaySeq n = 3/10) ∧
    (∀ n, decaySeq (n + 1) = max (3/10) (decaySeq n * (1/2))) ∧
    (∀ n, decaySeq (n + 1) ≤ decaySeq n) := by
  refine ⟨?_, rfl, decaySeq_one, fun n hn => decaySeq_floor_exact hn,
    fun n => rfl, decaySeq_mono⟩
  have h := trustAt_applyCalls_drops cs hcs LedgerState.init
  have h0 : trustAt LedgerState.init (MakeKey a b) = 1 := rfl
  rw [GetTrust_eq_trustAt, h, h0, decaySeq_eq_iter]

/-- Witness for C2 with three concrete drop updates on link (0,1). -/
theorem C2_decay_curve_witness :
    GetTrust (applyCalls LedgerState.init
        [⟨0, 1, 0, true, true⟩, ⟨0, 1, 0, true, true⟩, ⟨0, 1, 0, true, true⟩]) 0 1 =
      decaySeq 3 ∧
    decaySeq 0 = 1 ∧ decaySeq 1 = 1/2 ∧
    (∀ n, 2 ≤ n → decaySeq n = 3/10) ∧
    (∀ n, decaySeq (n + 1) = max (3/10) (decaySeq n * (1/2))) ∧
    (∀ n, decaySeq (n + 1) ≤ decaySeq n) :=
  C2_decay_curve 0 1
    [⟨0, 1, 0, true, true⟩, ⟨0, 1, 0, true, true⟩, ⟨0, 1, 0, true, true⟩] (by decide)

theorem UpdateMetric_baseline_trust {st : LedgerState} (hT : ∀ e ∈ st.ledger, e.2.trust = 1)
    (a b : ℕ) (snr : ℚ) (d : Bool) :
    ∀ e ∈ (UpdateMetric st a b snr d false).ledger, e.2.trust = 1 := by
  intro e he
  simp only [UpdateMetric] at he
  rcases mem_ledgerInsert he with rfl | he'
  · rw [updateRecord_trust]
    simp only [Bool.and_false, Bool.false_eq_true, if_false]
    cases hf : ledgerFind st.ledger (MakeKey a b) with
    | none => simp [hf, LinkMetric.init]
    | some m => simpa [hf] using hT _ (ledgerFind_mem hf)
  · exact hT e he'

theorem applyCalls_baseline (cs : List UpdateCall) :
    ∀ st : LedgerState, (∀ c ∈ cs, c.useBlockchain = false) →
      (∀ e ∈ st.ledger, e.2.trust = 1) →
      (∀ e ∈ (applyCalls st cs).ledger, e.2.trust = 1) ∧
      (applyCalls st cs).trustPenalties = st.trustPenalties := by
  induction cs with
  | nil => intro st _ hT; exact ⟨hT, rfl⟩
  | cons c cs ih =>
    intro st hcs hT
    have hcb := hcs c (List.mem_cons_self c cs)
    rw [applyCalls_cons, hcb]
    have hstep := ih (UpdateMetric st c.src c.dst c.snr c.isDrop false)
      (fun c' hc' => hcs c' (List.mem_cons_of_mem _ hc'))
      (UpdateMetric_baseline_trust hT _ _ _ _)
    refine ⟨hstep.1, ?_⟩
    rw [hstep.2, UpdateMetric_penalties]
    simp

/-- C6: Baseline immutability of trust: from construction, any sequence of
`trust_enabled = false` updates leaves every trust at 1.0 and the global
`g_trustPenalties` counter at 0; moreover a single baseline drop update with
non-positive snr only increments the `drops` field of the one affected record,
leaving its trust and `movingAvgSnr` and all other records and the counter
unchanged. -/
theorem C6_baseline_frame (cs : List UpdateCall) (hcs : ∀ c ∈ cs, c.useBlockchain = false)
    (st : LedgerState) (a b : ℕ) (snr : ℚ) (hsnr : snr ≤ 0) :
    (∀ x y, GetTrust (applyCalls LedgerState.init cs) x y = 1) ∧
    (applyCalls LedgerState.init cs).trustPenalties = 0 ∧
    (UpdateMetric st a b snr true false).trustPenalties = st.trustPenalties ∧
    ledgerFind (UpdateMetric st a b snr true false).ledger (MakeKey a b) =
      some { (ledgerFind st.ledger (MakeKey a b)).getD LinkMetric.init with
              drops := ((ledgerFind st.ledger (MakeKey a b)).getD LinkMetric.init).drops + 1 } ∧
    (∀ k, k ≠ MakeKey a b → ledgerFind (UpdateMetric st a b snr true false).ledger k =
      ledgerFind st.ledger k) := by
  obtain ⟨hT, hP⟩ := applyCalls_baseline cs LedgerState.init hcs
    (by intro e he; simp [LedgerState.init] at he)
  refine ⟨?_, hP, rfl, ?_, ?_⟩
  · intro x y
    unfold GetTrust
    cases hf : ledgerFind (applyCalls LedgerState.init cs).ledger (MakeKey x y) with
    | none => rfl
    | some m => exact hT _ (ledgerFind_mem hf)
  · rw [ledgerFind_UpdateMetric_same]
    congr 1
    have hrec : ∀ m : LinkMetric, updateRecord snr true false m = { m with drops := m.drops + 1 } := by
      intro m
      unfold updateRecord
      simp [not_lt.mpr hsnr]
    exact hrec _
  · intro k hk
    exact ledgerFind_UpdateMetric_other st a b snr true false hk

/-- Witness for C6 at concrete baseline updates. -/
theorem C6_baseline_frame_witness :
    (∀ x y, GetTrust (applyCalls LedgerState.init [⟨0, 1, 5, true, false⟩]) x y = 1) ∧
    (applyCalls LedgerState.init [⟨0, 1, 5, true, false⟩]).trustPenalties = 0 ∧
    (UpdateMetric LedgerState.init 0 1 0 true false).trustPenalties =
      LedgerState.init.trustPenalties ∧
    ledgerFind (UpdateMetric LedgerState.init 0 1 0 true false).ledger (MakeKey 0 1) =
      some { (ledgerFind LedgerState.init.ledger (MakeKey 0 1)).getD LinkMetric.init with
              drops := ((ledgerFind LedgerState.init.ledger (MakeKey 0 1)).getD
                LinkMetric.init).drops + 1 } ∧
    (∀ k, k ≠ MakeKey 0 1 →
      ledgerFind (UpdateMetric LedgerState.init 0 1 0 true false).ledger k =
        ledgerFind LedgerState.init.ledger k) :=
  C6_baseline_frame [⟨0, 1, 5, true, false⟩] (by decide) LedgerState.init 0 1 0 le_rfl

/-- The positive SNR observations a call sequence applies to a given key
(exactly the calls whose EMA branch fires on that record). -/
def obsOf (cs : List UpdateCall) (k : Key) : List ℚ :=
  cs.filterMap (fun c => if MakeKey c.src c.dst = k ∧ 0 < c.snr then some c.snr else none)

theorem obsOf_cons (c : UpdateCall) (cs : List UpdateCall) (k : Key) :
    obsOf (c :: cs) k =
      if MakeKey c.src c.dst = k ∧ 0 < c.snr then c.snr :: obsOf cs k else obsOf cs k := by
  by_cases h : MakeKey c.src c.dst = k ∧ 0 < c.snr <;> simp [obsOf, h]

/-- Membership in the convex hull of a finite list of rationals. -/
def inHull (xs : List ℚ) (x : ℚ) : Prop :=
  (∃ a ∈ xs, a ≤ x) ∧ (∃ b ∈ xs, x ≤ b)

theorem avgAt_update (st : LedgerState) (c : UpdateCall) (k : Key) :
    avgAt (UpdateMetric st c.src c.dst c.snr c.isDrop c.useBlockchain) k =
      if MakeKey c.src c.dst = k then
        (if 0 < c.snr then (3/10 : ℚ) * c.snr + (1 - 3/10) * avgAt st k else avgAt st k)
      else avgAt st k := by
  by_cases hk : MakeKey c.src c.dst = k
  · have hfind := ledgerFind_UpdateMetric_same st c.src c.dst c.snr c.isDrop c.useBlockchain
    rw [hk] at hfind
    unfold avgAt
    rw [if_pos hk]
    cases hf : ledgerFind st.ledger k with
    | none =>
      rw [hf] at hfind
      simp [hfind, updateRecord_avg, LinkMetric.init]
    | some m =>
      rw [hf] at hfind
      simp [hfind, updateRecord_avg]
  · unfold avgAt
    rw [if_neg hk, ledgerFind_UpdateMetric_other st c.src c.dst c.snr c.isDrop c.useBlockchain
      (fun h => hk h.symm)]

theorem avgAt_nonneg (cs : List UpdateCall) :
    ∀ st : LedgerState, (∀ k, 0 ≤ avgAt st k) → ∀ k, 0 ≤ avgAt (applyCalls st cs) k := by
  induction cs with
  | nil => intro st h k; exact h k
  | cons c cs ih =>
    intro st h k0
    rw [applyCalls_cons]
    refine ih _ (fun k => ?_) k0
    rw [avgAt_update]
    split
    · split
      · next hsnr => have := h k; linarith
      · exact h k
    · exact h k

theorem avgAt_upper (cs : List UpdateCall) :
    ∀ (st : LedgerState) (k : Key),
      ∃ b, (b = avgAt st k ∨ b ∈ obsOf cs k) ∧ avgAt (applyCalls st cs) k ≤ b := by
  induction cs with
  | nil => intro st k; exact ⟨avgAt st k, Or.inl rfl, le_refl _⟩
  | cons c cs ih =>
    intro st k
    rw [applyCalls_cons]
    obtain ⟨b, hb, hle⟩ := ih (UpdateMetric st c.src c.dst c.snr c.isDrop c.useBlockchain) k
    rcases hb with hb | hb
    · rw [avgAt_update] at hb
      by_cases hk : MakeKey c.src c.dst = k
      · by_cases hsnr : 0 < c.snr
        · rw [if_pos hk, if_pos hsnr] at hb
          rcases le_total c.snr (avgAt st k) with hcmp | hcmp
          · exact ⟨avgAt st k, Or.inl rfl, by rw [hb] at hle; linarith⟩
          · refine ⟨c.snr, Or.inr ?_, by rw [hb] at hle; linarith⟩
            rw [obsOf_cons, if_pos ⟨hk, hsnr⟩]
            exact List.mem_cons_self _ _
        · rw [if_pos hk, if_neg hsnr] at hb
          exact ⟨avgAt st k, Or.inl rfl, hb ▸ hle⟩
      · rw [if_neg hk] at hb
        exact ⟨avgAt st k, Or.inl rfl, hb ▸ hle⟩
    · refine ⟨b, Or.inr ?_, hle⟩
      rw [obsOf_cons]
      split
      · exact List.mem_cons_of_mem _ hb
      · exact hb

/-- C7 (amended): EMA bounds: after any sequence of `UpdateMetric` calls from
construction, the stored `movingAvgSnr` of every record lies in the convex hull
of the SNR values observed on that link together with the initial value 0.0. -/
theorem C7_ema_hull (cs : List UpdateCall) (k : Key) (m : LinkMetric)
    (hm : ledgerFind (applyCalls LedgerState.init cs).ledger k = some m) :
    inHull ((0:ℚ) :: obsOf cs k) m.movingAvgSnr := by
  have havg : avgAt (applyCalls LedgerState.init cs) k = m.movingAvgSnr := by
    unfold avgAt
    rw [hm]
  constructor
  · refine ⟨0, List.mem_cons_self _ _, ?_⟩
    rw [← havg]
    exact avgAt_nonneg cs LedgerState.init (fun _ => le_of_eq rfl) k
  · obtain ⟨b, hb, hle⟩ := avgAt_upper cs LedgerState.init k
    rcases hb with hb | hb
    · refine ⟨0, List.mem_cons_self _ _, ?_⟩
      rw [← havg]
      rw [hb] at hle
      exact hle
    · exact ⟨b, List.mem_cons_of_mem _ hb, havg ▸ hle⟩

/-- A single positive-SNR observation of 10 on a fresh link yields the record
(3, 0, 1): the EMA lands strictly below the observation. -/
theorem emaRecord_init : updateRecord 10 false true LinkMetric.init = ⟨3, 0, 1⟩ := by
  unfold updateRecord LinkMetric.init
  norm_num

theorem emaLedger_single :
    ledgerFind (applyCalls LedgerState.init [⟨0, 1, 10, false, true⟩]).ledger (0, 1) =
      some ⟨3, 0, 1⟩ := by
  show ledgerFind (UpdateMetric LedgerState.init 0 1 10 false true).ledger (0, 1) = _
  simp [UpdateMetric, LedgerState.init, ledgerFind, ledgerInsert, MakeKey, emaRecord_init]

theorem obsOf_single : obsOf [⟨0, 1, 10, false, true⟩] (0, 1) = [10] := by
  norm_num [obsOf, MakeKey, List.filterMap]

/-- Witness for C7 at a concrete single observation. -/
theorem C7_ema_hull_witness :
    inHull ((0:ℚ) :: obsOf [⟨0, 1, 10, false, true⟩] (0, 1)) 3 :=
  C7_ema_hull [⟨0, 1, 10, false, true⟩] (0, 1) ⟨3, 0, 1⟩ emaLedger_single

/-- C7 counterexample: after the single observation snr = 10 on link (0,1) the
stored average is 3, which is outside the convex hull [10, 10] of the observed
SNR values, refuting the claim as stated (without the initial value 0). -/
theorem C7_hull_counterexample :
    ledgerFind (applyCalls LedgerState.init [⟨0, 1, 10, false, true⟩]).ledger (0, 1) =
      some ⟨3, 0, 1⟩ ∧
    obsOf [⟨0, 1, 10, false, true⟩] (0, 1) = [10] ∧
    ¬ inHull (obsOf [⟨0, 1, 10, false, true⟩] (0, 1)) 3 := by
  refine ⟨emaLedger_single, obsOf_single, ?_⟩
  rw [obsOf_single]
  rintro ⟨⟨a, ha, hle⟩, -⟩
  rw [List.mem_singleton] at ha
  rw [ha] at hle
  norm_num at hle

/-- C9: Symmetric ledger key: trust and SNR reads are symmetric in the two node
ids, and updates through either orientation mutate the same record, keyed by
the unordered pair (min, max). -/
theorem C9_symmetric_key (st : LedgerState) (a b : ℕ) (snr : ℚ) (d ub : Bool) :
    MakeKey a b = MakeKey b a ∧ MakeKey a b = (min a b, max a b) ∧
    GetTrust st a b = GetTrust st b a ∧ GetSnr st a b = GetSnr st b a ∧
    UpdateMetric st a b snr d ub = UpdateMetric st b a snr d ub := by
  have hk : MakeKey a b = MakeKey b a := by
    unfold MakeKey
    rw [Nat.min_comm a b, Nat.max_comm a b]
  refine ⟨hk, rfl, ?_, ?_, ?_⟩
  · unfold GetTrust
    rw [hk]
  · unfold GetSnr
    rw [hk]
  · unfold UpdateMetric
    rw [hk]

theorem filter_eq_nil_of {α : Type} (l : List α) (p : α → Bool)
    (h : ∀ x ∈ l, p x = false) : l.filter p = [] := by
  induction l with
  | nil => rfl
  | cons x l ih =>
    rw [List.filter_cons]
    simp [h x (List.mem_cons_self x l), ih (fun y hy => h y (List.mem_cons_of_mem _ hy))]

/-- C10: The dynamic blackhole classifier is unsatisfiable on reachable
states: on any ledger produced from the empty ledger by `UpdateMetric` calls,
`IsBlackhole` returns false for every node, because every stored trust is at
least the floor 0.3 while the classifier counts only entries with trust
strictly below 0.3. -/
theorem C10_classifier_unsat (cs : List UpdateCall) (n : ℕ) :
    IsBlackhole (applyCalls LedgerState.init cs) n = false := by
  have hB := applyCalls_bounds trustBounds_init cs
  simp only [IsBlackhole]
  have hnil : ((applyCalls LedgerState.init cs).ledger.filter
      (fun e => decide (e.1.1 = n) || decide (e.1.2 = n))).filter
      (fun e => decide (e.2.trust < 3/10)) = [] := by
    apply filter_eq_nil_of
    intro e he
    have he' : e ∈ (applyCalls LedgerState.init cs).ledger := List.mem_of_mem_filter he
    exact decide_eq_false (not_lt.mpr (hB e he').1)
  rw [hnil]
  simp only [List.length_nil, Nat.cast_zero, zero_div]
  have hd : decide ((1:ℚ)/2 < 0) = false := decide_eq_false (by norm_num)
  rw [hd, Bool.and_false]

/-- Whether `need` is an initial segment of `hay`. -/
def startsWithChars : List Char → List Char → Bool
  | [], _ => true
  | _ :: _, [] => false
  | n :: ns, h :: hs => (n == h) && startsWithChars ns hs

def findSubAux (need : List Char) : List Char → ℕ → Option ℕ
  | [], i => if startsWithChars need [] then some i else none
  | h :: hs, i => if startsWithChars need (h :: hs) then some i else findSubAux need hs (i + 1)

/-- Model of `std::string::find(need)`: least index of an occurrence. -/
def strFind (hay need : List Char) : Option ℕ := findSubAux need hay 0

/-- Model of `std::string::find(need, start)`: least occurrence index at or
after `start`. -/
def strFindFrom (hay need : List Char) (start : ℕ) : Option ℕ :=
  (findSubAux need (hay.drop start) 0).map (· + start)

/-- The C-locale whitespace characters skipped by `std::stoul`. -/
def isSpaceC (c : Char) : Bool :=
  c == ' ' || c == '\t' || c == '\n' || c == '\r' || c == Char.ofNat 11 || c == Char.ofNat 12

/-- Value of a base-10 digit run. -/
def digitsVal (ds : List Char) : ℕ := ds.foldl (fun a c => 10 * a + (c.toNat - 48)) 0

/-- Model of `std::stoul` (base 10, 64-bit unsigned long): optional leading
whitespace and sign, then a nonempty digit run; `none` models a thrown
`std::invalid_argument` (no digits) or `std::out_of_range` (value above
ULONG_MAX); a minus sign negates modulo 2^64 as `strtoul` does. -/
def stoulModel (s : List Char) : Option ℕ :=
  let s1 := s.dropWhile isSpaceC
  let signed : Bool × List Char :=
    match s1 with
    | '+' :: rest => (false, rest)
    | '-' :: rest => (true, rest)
    | _ => (false, s1)
  let ds := signed.2.takeWhile Char.isDigit
  if ds = [] then none
  else if 2^64 ≤ digitsVal ds then none
  else some (if signed.1 then (2^64 - digitsVal ds) % 2^64 else digitsVal ds)

def UINT32MAX : ℕ := 2^32 - 1

/-- `ParseNodeIdFromContext` (lines 403-418): extract the node id between
"/NodeList/" and the next "/". Returns `some UINT32MAX` when either marker is
missing (the source's explicit UINT32_MAX returns); returns `none` when
`std::stoul` throws (non-numeric or overflowing id field), modelling the
uncaught exception; the `static_cast<uint32_t>` truncates modulo 2^32. -/
def ParseNodeIdFromContext (context : String) : Option ℕ :=
  let cs := context.data
  match strFind cs "/NodeList/".data with
  | none => some UINT32MAX
  | some nodeListPos =>
    let startPos := nodeListPos + 10
    match strFindFrom cs ['/'] startPos with
    | none => some UINT32MAX
    | some endPos =>
      let nodeIdStr := (cs.drop startPos).take (endPos - startPos)
      (stoulModel nodeIdStr).map (fun v => v % 2^32)

/-- The parts of the global `SimulationContext` and NS-3 environment the trace
callbacks read: node count, node positions (from the external mobility models,
assumed installed on every node as `main` does), active flows, the ground-truth
blackhole set, radio range, default SNR and routing mode. `sqrtFn` models the
external `std::sqrt` used only to produce the distance VALUE inside the SNR
estimate (in-range tests are done exactly via `inRangeB`). -/
structure SimConfig where
  numNodes : ℕ
  pos : ℕ → ℚ × ℚ × ℚ
  activeFlows : List (ℕ × ℕ)
  blackholeNodes : Finset ℕ
  maxRadioRange : ℚ
  defaultSnr : ℚ
  useBlockchain : Bool
  sqrtFn : ℚ → ℚ

/-- Mutable global state touched by the callbacks: the ledger (with
`g_trustPenalties`) and the remaining drop counters. -/
structure SimSt where
  ledgerSt : LedgerState
  phyDrops : ℕ
  l3Drops : ℕ
  blackholeL3Drops : ℕ
  routeSkips : ℕ
  maliciousDrops : ℕ
  deriving DecidableEq

def SimSt.init : SimSt := ⟨LedgerState.init, 0, 0, 0, 0, 0⟩

def SimSt.updateLedger (st : SimSt) (src dst : ℕ) (snr : ℚ) (isDrop ub : Bool) : SimSt :=
  { st with ledgerSt := UpdateMetric st.ledgerSt src dst snr isDrop ub }

/-- Squared Euclidean distance between two positions. -/
def distSq (p q : ℚ × ℚ × ℚ) : ℚ :=
  (p.1 - q.1)^2 + (p.2.1 - q.2.1)^2 + (p.2.2 - q.2.2)^2

/-- The source's `distance < maxRange` test: since `distSq ≥ 0`, the condition
`sqrt (distSq p q) < range` holds iff `0 < range ∧ distSq p q < range²`, which
is what this Boolean computes (no square root needed). -/
def inRangeB (p q : ℚ × ℚ × ℚ) (range : ℚ) : Bool :=
  decide (0 < range) && decide (distSq p q < range^2)

/-- The distance-based SNR estimate of `PhyRxEndCallback` (lines 442-455):
`defaultSnr - distance/10`, clamped below at 5.0. -/
def estimatedSnr (cfg : SimConfig) (i j : ℕ) : ℚ :=
  let d := cfg.sqrtFn (distSq (cfg.pos i) (cfg.pos j))
  let e := cfg.defaultSnr - d / 10
  if e < 5 then 5 else e

/-- First active flow whose destination is the receiving node (lines 432-438). -/
def findFlowSource (flows : List (ℕ × ℕ)) (recv : ℕ) : Option ℕ :=
  (flows.find? (fun f => f.2 == recv)).map Prod.fst

/-- The unknown-source fan-out branch of the callbacks: update every in-range
pair involving the receiver. -/
def fanoutUpdate (cfg : SimConfig) (recv : ℕ) (snrOf : ℕ → ℚ) (isDrop : Bool)
    (st : SimSt) : SimSt :=
  (List.range cfg.numNodes).foldl (fun s i =>
    if i ≠ recv ∧ inRangeB (cfg.pos i) (cfg.pos recv) cfg.maxRadioRange = true then
      s.updateLedger i recv (snrOf i) isDrop cfg.useBlockchain
    else s) st

/-- `PhyRxEndCallback` (lines 424-483): successful reception. `.error ()`
models the uncaught `std::stoul` exception escaping the callback. -/
def PhyRxEndCallback (cfg : SimConfig) (context : String) (st : SimSt) : Except Unit SimSt :=
  match ParseNodeIdFromContext context with
  | none => .error ()
  | some recv =>
    if recv = UINT32MAX ∨ cfg.numNodes ≤ recv then .ok st
    else
      match findFlowSource cfg.activeFlows recv with
      | some src =>
        .ok (st.updateLedger src recv (estimatedSnr cfg src recv) false cfg.useBlockchain)
      | none => .ok (fanoutUpdate cfg recv (fun i => estimatedSnr cfg i recv) false st)

/-- `PhyRxDropCallback` (lines 598-675): PHY-layer drop; bumps `g_phyDrops`
after the node-id validity check, then records drop evidence. -/
def PhyRxDropCallback (cfg : SimConfig) (context : String) (st : SimSt) : Except Unit SimSt :=
  match ParseNodeIdFromContext context with
  | none => .error ()
  | some recv =>
    if recv = UINT32MAX ∨ cfg.numNodes ≤ recv then .ok st
    else
      let st1 := { st with phyDrops := st.phyDrops + 1 }
      match findFlowSource cfg.activeFlows recv with
      | some src => .ok (st1.updateLedger src recv 0 true cfg.useBlockchain)
      | none => .ok (fanoutUpdate cfg recv (fun _ => 0) true st1)

/-- `Ipv4L3DropCallback` (lines 490-593): L3 drop. `pktSrc` models the lookup
of the packet header's source address in the external interface container
(first node whose address matches, if any). The ground-truth blackhole set is
consulted only to bump evaluation counters; `IsBlackhole` is called for
logging only and has no state effect. -/
def Ipv4L3DropCallback (cfg : SimConfig) (context : String) (pktSrc : Option ℕ)
    (st : SimSt) : Except Unit SimSt :=
  match ParseNodeIdFromContext context with
  | none => .error ()
  | some recv =>
    if recv = UINT32MAX ∨ cfg.numNodes ≤ recv then .ok st
    else
      let st1 := { st with l3Drops := st.l3Drops + 1 }
      let st2 :=
        if recv ∈ cfg.blackholeNodes then
          { st1 with maliciousDrops := st1.maliciousDrops + 1,
                     blackholeL3Drops := st1.blackholeL3Drops + 1 }
        else st1
      match pktSrc with
      | some src => .ok (st2.updateLedger src recv 0 true cfg.useBlockchain)
      | none => .ok (fanoutUpdate cfg recv (fun _ => 0) true st2)

/-- A tiny concrete configuration for counterexamples and witnesses. -/
def cfgEx : SimConfig := ⟨1, fun _ => (0, 0, 0), [], ∅, 150, 20, true, fun _ => 0⟩

/-- C8 counterexample: on the context string "/NodeList/x/DeviceList" the
node-id field "x" makes `std::stoul` throw `std::invalid_argument`, so the
reception callback does not return normally, refuting "callbacks never raise"
for arbitrary context strings. -/
theorem C8_raise_counterexample :
    PhyRxEndCallback cfgEx "/NodeList/x/DeviceList" SimSt.init = .error () ∧
    ParseNodeIdFromContext "/NodeList/x/DeviceList" = none := ⟨rfl, rfl⟩

/-- C8 (amended): whenever the node-id field of the context parses (so
`std::stoul` does not throw), all three callbacks return normally; and when the
parsed id is invalid — `UINT32_MAX` or at least the node-container size — they
return with the ledger and every counter unchanged. -/
theorem C8_callbacks_total (cfg : SimConfig) (context : String) (pktSrc : Option ℕ)
    (st : SimSt) (hparse : ParseNodeIdFromContext context ≠ none) :
    ((∃ s1, PhyRxEndCallback cfg context st = .ok s1) ∧
     (∃ s2, PhyRxDropCallback cfg context st = .ok s2) ∧
     (∃ s3, Ipv4L3DropCallback cfg context pktSrc st = .ok s3)) ∧
    (∀ n, ParseNodeIdFromContext context = some n → n = UINT32MAX ∨ cfg.numNodes ≤ n →
      PhyRxEndCallback cfg context st = .ok st ∧
      PhyRxDropCallback cfg context st = .ok st ∧
      Ipv4L3DropCallback cfg context pktSrc st = .ok st) := by
  cases hp : ParseNodeIdFromContext context with
  | none => exact absurd hp hparse
  | some n =>
    unfold PhyRxEndCallback PhyRxDropCallback Ipv4L3DropCallback
    simp only [hp]
    by_cases hinv : n = UINT32MAX ∨ cfg.numNodes ≤ n
    · rw [if_pos hinv, if_pos hinv, if_pos hinv]
      exact ⟨⟨⟨st, rfl⟩, ⟨st, rfl⟩, ⟨st, rfl⟩⟩, fun n' hn' _ => ⟨rfl, rfl, rfl⟩⟩
    · rw [if_neg hinv, if_neg hinv, if_neg hinv]
      refine ⟨⟨?_, ?_, ?_⟩, ?_⟩
      · cases findFlowSource cfg.activeFlows n with
        | none => exact ⟨_, rfl⟩
        | some src => exact ⟨_, rfl⟩
      · cases findFlowSource cfg.activeFlows n with
        | none => exact ⟨_, rfl⟩
        | some src => exact ⟨_, rfl⟩
      · cases pktSrc with
        | none => exact ⟨_, rfl⟩
        | some src => exact ⟨_, rfl⟩
      · intro n' hn' hinv'
        cases Option.some.inj hn'
        exact absurd hinv' hinv

/-- Witness for C8 at a concrete context with a valid-format but out-of-range
node id (7 with a single-node container). -/
theorem C8_callbacks_total_witness :
    ((∃ s1, PhyRxEndCallback cfgEx "/NodeList/7/x" SimSt.init = .ok s1) ∧
     (∃ s2, PhyRxDropCallback cfgEx "/NodeList/7/x" SimSt.init = .ok s2) ∧
     (∃ s3, Ipv4L3DropCallback cfgEx "/NodeList/7/x" none SimSt.init = .ok s3)) ∧
    (∀ n, ParseNodeIdFromContext "/NodeList/7/x" = some n →
      n = UINT32MAX ∨ cfgEx.numNodes ≤ n →
      PhyRxEndCallback cfgEx "/NodeList/7/x" SimSt.init = .ok SimSt.init ∧
      PhyRxDropCallback cfgEx "/NodeList/7/x" SimSt.init = .ok SimSt.init ∧
      Ipv4L3DropCallback cfgEx "/NodeList/7/x" none SimSt.init = .ok SimSt.init) :=
  C8_callbacks_total cfgEx "/NodeList/7/x" none SimSt.init (by decide)

/-- The graph the routing engine builds each heartbeat: `edge` is the
adjacency relation over node ids below `numNodes` and `cost` the edge weight
(`m_graph` / `m_weights`). -/
structure RoutingGraph where
  numNodes : ℕ
  edge : ℕ → ℕ → Bool
  cost : ℕ → ℕ → ℚ

/-- The per-edge weight computation of `RoutingEngine::BuildGraph`
(lines 243-283): fetch trust and SNR from the ledger, clamp them, and combine
as `alpha/snr + beta/trust` in Proposed mode or the constant 1 in Baseline
mode. -/
def linkCost (st : LedgerState) (ub : Bool) (dsnr alpha beta : ℚ) (i j : ℕ) : ℚ :=
  let trust0 := GetTrust st i j
  let snr0 := GetSnr st i j
  let snr := if snr0 ≤ 0 then dsnr else snr0
  let trust1 := if trust0 ≤ 0 then 1 else trust0
  let trust2 := if trust1 < 3/10 then 3/10 else trust1
  if ub then alpha / snr + beta / trust2 else 1

/-- `RoutingEngine::BuildGraph` (lines 209-287). The source iterates all pairs
`i < j < n` and inserts both directions whenever the Euclidean distance is
below `maxRange`, giving this symmetric edge predicate (`main` installs a
mobility model on every node, so the missing-mobility `continue` cannot
fire). The `blackholeNodes` parameter is accepted, as in the source signature,
but never consulted by the body. -/
def BuildGraph (n : ℕ) (pos : ℕ → ℚ × ℚ × ℚ) (st : LedgerState) (maxRange : ℚ)
    (blackholeNodes : Finset ℕ) (ub : Bool) (dsnr alpha beta : ℚ) : RoutingGraph :=
  { numNodes := n
    edge := fun i j =>
      decide (i < n) && decide (j < n) && !(i == j) && inRangeB (pos i) (pos j) maxRange
    cost := fun i j => linkCost st ub dsnr alpha beta i j }

/-- A ledger-state fan-out mirroring `fanoutUpdate` on the ledger component. -/
def fanoutLedger (cfg : SimConfig) (recv : ℕ) (snrOf : ℕ → ℚ) (isDrop : Bool)
    (ls : LedgerState) : LedgerState :=
  (List.range cfg.numNodes).foldl (fun s i =>
    if i ≠ recv ∧ inRangeB (cfg.pos i) (cfg.pos recv) cfg.maxRadioRange = true then
      UpdateMetric s i recv (snrOf i) isDrop cfg.useBlockchain
    else s) ls

theorem fanoutUpdate_ledgerSt (cfg : SimConfig) (recv : ℕ) (snrOf : ℕ → ℚ) (d : Bool)
    (st : SimSt) :
    (fanoutUpdate cfg recv snrOf d st).ledgerSt = fanoutLedger cfg recv snrOf d st.ledgerSt := by
  unfold fanoutUpdate fanoutLedger
  generalize List.range cfg.numNodes = l
  induction l generalizing st with
  | nil => rfl
  | cons i l ih =>
    simp only [List.foldl_cons]
    by_cases h : i ≠ recv ∧ inRangeB (cfg.pos i) (cfg.pos recv) cfg.maxRadioRange = true
    · rw [if_pos h, if_pos h]
      exact ih _
    · rw [if_neg h, if_neg h]
      exact ih _

/-- C3: Noninterference of the ground-truth malicious set: two runs differing
only in the blackhole set produce the identical routing graph (edges and
weights), identical reception and PHY-drop callback results, and identical
ledger states (hence identical trust values) from the L3-drop callback; the
ledger operations `GetTrust` and `UpdateMetric` take no malicious-node set at
all. -/
theorem C3_blackhole_noninterference (n : ℕ) (pos : ℕ → ℚ × ℚ × ℚ) (st : LedgerState)
    (maxRange dsnr alpha beta : ℚ) (ub : Bool) (bh bh' : Finset ℕ)
    (cfg : SimConfig) (context : String) (pktSrc : Option ℕ) (sim : SimSt) :
    BuildGraph n pos st maxRange bh ub dsnr alpha beta =
      BuildGraph n pos st maxRange bh' ub dsnr alpha beta ∧
    PhyRxEndCallback { cfg with blackholeNodes := bh } context sim =
      PhyRxEndCallback { cfg with blackholeNodes := bh' } context sim ∧
    PhyRxDropCallback { cfg with blackholeNodes := bh } context sim =
      PhyRxDropCallback { cfg with blackholeNodes := bh' } context sim ∧
    Except.map SimSt.ledgerSt
        (Ipv4L3DropCallback { cfg with blackholeNodes := bh } context pktSrc sim) =
      Except.map SimSt.ledgerSt
        (Ipv4L3DropCallback { cfg with blackholeNodes := bh' } context pktSrc sim) := by
  refine ⟨rfl, rfl, rfl, ?_⟩
  cases hp : ParseNodeIdFromContext context with
  | none => simp [Ipv4L3DropCallback, hp]
  | some recv =>
    by_cases hinv : recv = UINT32MAX ∨ cfg.numNodes ≤ recv
    · simp [Ipv4L3DropCallback, hp, hinv]
    · simp only [Ipv4L3DropCallback, hp]
      rw [if_neg hinv, if_neg hinv]
      cases pktSrc with
      | some src =>
        by_cases hm : recv ∈ bh <;> by_cases hm' : recv ∈ bh' <;>
          (simp [hm, hm', Except.map, SimSt.updateLedger]; try rfl)
      | none =>
        by_cases hm : recv ∈ bh <;> by_cases hm' : recv ∈ bh' <;>
          (simp [hm, hm', Except.map, fanoutUpdate_ledgerSt]; try rfl)

/-- The key set of `m_graph`: nodes that received at least one edge (a node
with no incident edge is never inserted into the map). -/
def graphKeys (g : RoutingGraph) : Finset ℕ :=
  (Finset.range g.numNodes).filter (fun i => ∃ j ∈ Finset.range g.numNodes, g.edge i j = true)

/-- The minimum-distance scan of `CalculatePath` (lines 315-323): iterate in
ascending id order, keeping the first node that strictly improves the current
minimum; `none` models `u == UINT32_MAX` (no unvisited node has finite
distance). `⊤` models `std::numeric_limits<double>::infinity()`. -/
def selectFrom (dist : ℕ → WithTop ℚ) : List ℕ → Option ℕ → Option ℕ
  | [], acc => acc
  | v :: rest, none => selectFrom dist rest (if dist v < ⊤ then some v else none)
  | v :: rest, some u => selectFrom dist rest (if dist v < dist u then some v else some u)

def selectMin (dist : ℕ → WithTop ℚ) (s : Finset ℕ) : Option ℕ :=
  selectFrom dist (s.sort (· ≤ ·)) none

/-- The relaxation of all unvisited neighbours of `u` (lines 336-350), as the
pointwise effect on the distance map (each neighbour is updated independently
from the fixed `dist u`). -/
def relaxDist (g : RoutingGraph) (u : ℕ) (du : WithTop ℚ) (unv : Finset ℕ)
    (dist : ℕ → WithTop ℚ) : ℕ → WithTop ℚ :=
  fun v => if v ∈ unv ∧ g.edge u v = true ∧ du + (g.cost u v : WithTop ℚ) < dist v
    then du + (g.cost u v : WithTop ℚ) else dist v

/-- The corresponding effect on the predecessor map. -/
def relaxPrev (g : RoutingGraph) (u : ℕ) (du : WithTop ℚ) (unv : Finset ℕ)
    (dist : ℕ → WithTop ℚ) (prev : ℕ → Option ℕ) : ℕ → Option ℕ :=
  fun v => if v ∈ unv ∧ g.edge u v = true ∧ du + (g.cost u v : WithTop ℚ) < dist v
    then some u else prev v

/-- The `while (!unvisited.empty())` loop (lines 314-351), fuelled by the
number of keys: each non-break iteration erases one unvisited node, and the
loop breaks when no finite-distance node remains or the destination is
selected. `prev v = none` models `prev[v] == UINT32_MAX`. -/
def dijkstraLoop (g : RoutingGraph) (dest : ℕ) :
    ℕ → (ℕ → WithTop ℚ) → (ℕ → Option ℕ) → Finset ℕ →
      (ℕ → WithTop ℚ) × (ℕ → Option ℕ) × Finset ℕ
  | 0, dist, prev, unv => (dist, prev, unv)
  | fuel + 1, dist, prev, unv =>
    match selectMin dist unv with
    | none => (dist, prev, unv)
    | some u =>
      if u = dest then (dist, prev, unv)
      else
        dijkstraLoop g dest fuel
          (relaxDist g u (dist u) (unv.erase u) dist)
          (relaxPrev g u (dist u) (unv.erase u) dist prev)
          (unv.erase u)

/-- Path reconstruction (lines 354-361): follow `prev` from the destination
until `UINT32_MAX`; the result is reversed by the caller. -/
def tracePath (prev : ℕ → Option ℕ) : ℕ → ℕ → List ℕ
  | 0, _ => []
  | fuel + 1, cur =>
    match prev cur with
    | none => [cur]
    | some p => cur :: tracePath prev fuel p

/-- `RoutingEngine::CalculatePath` (lines 292-364): Dijkstra from `source`,
with early exit on `dest`; empty result when either endpoint is not a key of
`m_graph` or the destination was unreachable. -/
def CalculatePath (g : RoutingGraph) (source dest : ℕ) : List ℕ :=
  if source ∈ graphKeys g ∧ dest ∈ graphKeys g then
    let dist0 : ℕ → WithTop ℚ := fun v => if v = source then 0 else ⊤
    let r := dijkstraLoop g dest (graphKeys g).card dist0 (fun _ => none) (graphKeys g)
    if r.1 dest = ⊤ then [] else (tracePath r.2.1 ((graphKeys g).card + 1) dest).reverse
  else []

/-- Specification-side path predicate: `IsPath g s p d` says `p` is a node
sequence `[s, ..., d]` whose consecutive pairs are edges of `g`. -/
inductive IsPath (g : RoutingGraph) : ℕ → List ℕ → ℕ → Prop
  | single (v : ℕ) : IsPath g v [v] v
  | cons {a b d : ℕ} {p : List ℕ} (hab : g.edge a b = true)
      (hp : IsPath g b (b :: p) d) : IsPath g a (a :: b :: p) d

/-- Total cost of a node sequence under the edge-weight map. -/
def pathCost (g : RoutingGraph) : List ℕ → ℚ
  | a :: b :: rest => g.cost a b + pathCost g (b :: rest)
  | _ => 0

theorem pathCost_nil (g : RoutingGraph) : pathCost g [] = 0 := rfl

theorem pathCost_single (g : RoutingGraph) (v : ℕ) : pathCost g [v] = 0 := rfl

theorem pathCost_cons2 (g : RoutingGraph) (a b : ℕ) (rest : List ℕ) :
    pathCost g (a :: b :: rest) = g.cost a b + pathCost g (b :: rest) := rfl

/-- All edge weights positive (holds for every graph `BuildGraph` produces). -/
def PosWeights (g : RoutingGraph) : Prop := ∀ u v, g.edge u v = true → 0 < g.cost u v

/-- Both endpoints of every edge are keys of the graph. -/
def EdgesInKeys (g : RoutingGraph) : Prop :=
  ∀ u v, g.edge u v = true → u ∈ graphKeys g ∧ v ∈ graphKeys g

theorem IsPath.head_eq {g : RoutingGraph} {s : ℕ} {p : List ℕ} {d : ℕ}
    (hp : IsPath g s p d) : ∃ q, p = s :: q := by
  cases hp with
  | single => exact ⟨[], rfl⟩
  | cons hab hp => exact ⟨_, rfl⟩

theorem IsPath.last_mem {g : RoutingGraph} {s : ℕ} {p : List ℕ} {d : ℕ}
    (hp : IsPath g s p d) : d ∈ p := by
  induction hp with
  | single v => exact List.mem_singleton.mpr rfl
  | cons hab hp ih => exact List.mem_cons_of_mem _ ih

theorem IsPath.single_inv {g : RoutingGraph} {s v d : ℕ} (hp : IsPath g s [v] d) :
    s = v ∧ d = v := by
  cases hp
  exact ⟨rfl, rfl⟩

theorem IsPath.cons_cons_inv {g : RoutingGraph} {s a b d : ℕ} {p : List ℕ}
    (hp : IsPath g s (a :: b :: p) d) :
    s = a ∧ g.edge a b = true ∧ IsPath g b (b :: p) d := by
  cases hp with
  | cons hab hp => exact ⟨rfl, hab, hp⟩

theorem IsPath.append_edge {g : RoutingGraph} {s : ℕ} {p : List ℕ} {u v : ℕ}
    (hp : IsPath g s p u) (he : g.edge u v = true) : IsPath g s (p ++ [v]) v := by
  induction hp with
  | single w => exact IsPath.cons he (IsPath.single v)
  | cons hab hp ih => exact IsPath.cons hab (ih he)

theorem pathCost_append_edge {g : RoutingGraph} {s : ℕ} {p : List ℕ} {u : ℕ}
    (hp : IsPath g s p u) (v : ℕ) :
    pathCost g (p ++ [v]) = pathCost g p + g.cost u v := by
  induction hp with
  | single w => simp [pathCost_cons2, pathCost_single, pathCost_nil]
  | @cons a b d q hab hp ih =>
    simp only [List.cons_append] at ih ⊢
    rw [pathCost_cons2, pathCost_cons2, ih]
    ring

theorem pathCost_nonneg {g : RoutingGraph} (hpos : PosWeights g) {s : ℕ} {p : List ℕ}
    {d : ℕ} (hp : IsPath g s p d) : 0 ≤ pathCost g p := by
  induction hp with
  | single v => exact le_refl 0
  | @cons a b d q hab hp ih =>
    rw [pathCost_cons2]
    have := hpos a b hab
    linarith

theorem IsPath.split {g : RoutingGraph} {s d : ℕ} (q₁ : List ℕ) (y : ℕ) (q₂ : List ℕ) :
    IsPath g s (q₁ ++ y :: q₂) d →
      IsPath g s (q₁ ++ [y]) y ∧ IsPath g y (y :: q₂) d ∧
        pathCost g (q₁ ++ y :: q₂) = pathCost g (q₁ ++ [y]) + pathCost g (y :: q₂) := by
  induction q₁ generalizing s with
  | nil =>
    intro hp
    simp only [List.nil_append] at hp ⊢
    obtain ⟨q, hq⟩ := hp.head_eq
    have hys : y = s := (List.cons.inj hq).1
    subst hys
    exact ⟨IsPath.single y, hp, by rw [pathCost_single]; ring⟩
  | cons x q₁ ih =>
    intro hp
    rw [List.cons_append] at hp
    cases q₁ with
    | nil =>
      simp only [List.nil_append] at hp ⊢
      obtain ⟨rfl, hxy, htail⟩ := hp.cons_cons_inv
      refine ⟨IsPath.cons hxy (IsPath.single y), htail, ?_⟩
      simp [List.singleton_append, pathCost_cons2, pathCost_single]
    | cons z q₁' =>
      rw [List.cons_append] at hp
      obtain ⟨rfl, hxz, htail⟩ := hp.cons_cons_inv
      obtain ⟨h1, h2, h3⟩ := ih (s := z) htail
      refine ⟨IsPath.cons hxz h1, h2, ?_⟩
      simp only [List.cons_append] at h3 ⊢
      rw [pathCost_cons2, pathCost_cons2, h3]
      ring

theorem selectFrom_none (dist : ℕ → WithTop ℚ) :
    ∀ (l : List ℕ) (acc : Option ℕ), selectFrom dist l acc = none →
      acc = none ∧ ∀ v ∈ l, dist v = ⊤ := by
  intro l
  induction l with
  | nil =>
    intro acc h
    simp only [selectFrom] at h
    exact ⟨h, by simp⟩
  | cons v rest ih =>
    intro acc h
    cases acc with
    | none =>
      simp only [selectFrom] at h
      by_cases hv : dist v < ⊤
      · rw [if_pos hv] at h
        obtain ⟨hc, -⟩ := ih _ h
        cases hc
      · rw [if_neg hv] at h
        obtain ⟨-, hrest⟩ := ih _ h
        have hveq : dist v = ⊤ := by rwa [lt_top_iff_ne_top, not_not] at hv
        refine ⟨rfl, fun w hw => ?_⟩
        rcases List.mem_cons.mp hw with rfl | hw'
        · exact hveq
        · exact hrest w hw'
    | some a =>
      exfalso
      simp only [selectFrom] at h
      obtain ⟨hc, -⟩ := ih _ h
      split at hc <;> cases hc

theorem selectFrom_some (dist : ℕ → WithTop ℚ) :
    ∀ (l : List ℕ) (acc : Option ℕ) (u : ℕ), selectFrom dist l acc = some u →
      (∀ w, acc = some w → dist w ≠ ⊤) →
      dist u ≠ ⊤ ∧ (u ∈ l ∨ acc = some u) ∧ (∀ w ∈ l, dist u ≤ dist w) ∧
        (∀ w, acc = some w → dist u ≤ dist w) := by
  intro l
  induction l with
  | nil =>
    intro acc u h hacc
    simp only [selectFrom] at h
    refine ⟨hacc u h, Or.inr h, by simp, fun w hw => ?_⟩
    rw [h] at hw
    cases Option.some.inj hw
    exact le_refl _
  | cons v rest ih =>
    intro acc u h hacc
    cases acc with
    | none =>
      simp only [selectFrom] at h
      by_cases hv : dist v < ⊤
      · rw [if_pos hv] at h
        obtain ⟨h1, h2, h3, h4⟩ := ih _ u h
          (fun w hw => by cases Option.some.inj hw; exact ne_top_of_lt hv)
        refine ⟨h1, ?_, ?_, by intro w hw; cases hw⟩
        · rcases h2 with h2 | h2
          · exact Or.inl (List.mem_cons_of_mem _ h2)
          · cases Option.some.inj h2
            exact Or.inl (List.mem_cons_self _ _)
        · intro w hw
          rcases List.mem_cons.mp hw with rfl | hw'
          · exact h4 w rfl
          · exact h3 w hw'
      · rw [if_neg hv] at h
        obtain ⟨h1, h2, h3, -⟩ := ih _ u h (fun w hw => by cases hw)
        have hveq : dist v = ⊤ := by rwa [lt_top_iff_ne_top, not_not] at hv
        refine ⟨h1, ?_, ?_, by intro w hw; cases hw⟩
        · rcases h2 with h2 | h2
          · exact Or.inl (List.mem_cons_of_mem _ h2)
          · cases h2
        · intro w hw
          rcases List.mem_cons.mp hw with rfl | hw'
          · rw [hveq]; exact le_top
          · exact h3 w hw'
    | some a =>
      simp only [selectFrom] at h
      have ha : dist a ≠ ⊤ := hacc a rfl
      by_cases hv : dist v < dist a
      · rw [if_pos hv] at h
        have hvt : dist v ≠ ⊤ := ne_top_of_lt (lt_of_lt_of_le hv le_top)
        obtain ⟨h1, h2, h3, h4⟩ := ih _ u h
          (fun w hw => by cases Option.some.inj hw; exact hvt)
        refine ⟨h1, ?_, ?_, ?_⟩
        · rcases h2 with h2 | h2
          · exact Or.inl (List.mem_cons_of_mem _ h2)
          · cases Option.some.inj h2
            exact Or.inl (List.mem_cons_self _ _)
        · intro w hw
          rcases List.mem_cons.mp hw with rfl | hw'
          · exact h4 w rfl
          · exact h3 w hw'
        · intro w hw
          cases Option.some.inj hw
          exact le_trans (h4 v rfl) (le_of_lt hv)
      · rw [if_neg hv] at h
        obtain ⟨h1, h2, h3, h4⟩ := ih _ u h
          (fun w hw => by cases Option.some.inj hw; exact ha)
        have hav : dist a ≤ dist v := not_lt.mp hv
        refine ⟨h1, ?_, ?_, ?_⟩
        · rcases h2 with h2 | h2
          · exact Or.inl (List.mem_cons_of_mem _ h2)
          · exact Or.inr h2
        · intro w hw
          rcases List.mem_cons.mp hw with rfl | hw'
          · exact le_trans (h4 a rfl) hav
          · exact h3 w hw'
        · intro w hw
          cases Option.some.inj hw
          exact h4 a rfl

theorem selectMin_none {dist : ℕ → WithTop ℚ} {s : Finset ℕ}
    (h : selectMin dist s = none) : ∀ w ∈ s, dist w = ⊤ := by
  intro w hw
  exact (selectFrom_none dist _ _ h).2 w ((Finset.mem_sort _).mpr hw)

theorem selectMin_some {dist : ℕ → WithTop ℚ} {s : Finset ℕ} {u : ℕ}
    (h : selectMin dist s = some u) :
    u ∈ s ∧ dist u ≠ ⊤ ∧ ∀ w ∈ s, dist u ≤ dist w := by
  obtain ⟨h1, h2, h3, -⟩ := selectFrom_some dist _ _ u h (fun w hw => by cases hw)
  refine ⟨?_, h1, fun w hw => h3 w ((Finset.mem_sort _).mpr hw)⟩
  rcases h2 with h2 | h2
  · exact (Finset.mem_sort _).mp h2
  · cases h2

theorem exists_first_mem_split {P : ℕ → Prop} [DecidablePred P] :
    ∀ q : List ℕ, (∃ y ∈ q, P y) →
      ∃ q₁ y q₂, q = q₁ ++ y :: q₂ ∧ P y ∧ ∀ w ∈ q₁, ¬ P w := by
  intro q
  induction q with
  | nil => rintro ⟨y, hy, -⟩; cases hy
  | cons x q ih =>
    intro hex
    by_cases hx : P x
    · exact ⟨[], x, q, rfl, hx, by simp⟩
    · obtain ⟨y, hy, hPy⟩ := hex
      have hy' : y ∈ q := by
        cases List.mem_cons.mp hy with
        | inl h => exact absurd (h ▸ hPy) hx
        | inr h => exact h
      obtain ⟨q₁, y', q₂, heq, hPy', hq₁⟩ := ih ⟨y, hy', hPy⟩
      refine ⟨x :: q₁, y', q₂, by rw [List.cons_append, heq], hPy', ?_⟩
      intro w hw
      cases List.mem_cons.mp hw with
      | inl h => exact h ▸ hx
      | inr h => exact hq₁ w h

theorem IsPath.last_eq {g : RoutingGraph} {s d w : ℕ} {q : List ℕ}
    (hp : IsPath g s (q ++ [w]) d) : w = d := by
  induction q generalizing s with
  | nil =>
    simp only [List.nil_append] at hp
    exact hp.single_inv.2.symm
  | cons x q ih =>
    rw [List.cons_append] at hp
    cases q with
    | nil =>
      simp only [List.nil_append] at hp
      obtain ⟨-, -, htail⟩ := hp.cons_cons_inv
      exact htail.single_inv.2.symm
    | cons z q' =>
      rw [List.cons_append] at hp
      obtain ⟨-, -, htail⟩ := hp.cons_cons_inv
      exact ih htail

theorem tracePath_ne_nil (prev : ℕ → Option ℕ) (n v : ℕ) :
    tracePath prev (n + 1) v ≠ [] := by
  simp only [tracePath]
  cases prev v <;> simp

/-- The loop invariant of `CalculatePath`'s Dijkstra: `unv` is the unvisited
key set, `dist`/`prev` the tentative distance and predecessor maps. Visited
nodes carry exact shortest distances; unvisited neighbours of visited nodes
are relaxed; finite entries trace back to the source through `prev`. -/
structure DijkInv (g : RoutingGraph) (src : ℕ) (dist : ℕ → WithTop ℚ)
    (prev : ℕ → Option ℕ) (unv : Finset ℕ) : Prop where
  unv_sub : unv ⊆ graphKeys g
  dist_src : dist src = 0
  prev_src : prev src = none
  dist_nonneg : ∀ v, 0 ≤ dist v
  fin_keys : ∀ v, dist v ≠ ⊤ → v ∈ graphKeys g
  fin_prev : ∀ v, dist v ≠ ⊤ → v ≠ src → ∃ u, prev v = some u
  prev_spec : ∀ v u, prev v = some u → g.edge u v = true ∧ u ∉ unv ∧ dist u ≠ ⊤ ∧
    dist v = dist u + (g.cost u v : WithTop ℚ)
  visited_fin : ∀ v ∈ graphKeys g, v ∉ unv → dist v ≠ ⊤
  visited_opt : ∀ v ∈ graphKeys g, v ∉ unv → ∀ q, IsPath g src q v →
    dist v ≤ (pathCost g q : WithTop ℚ)
  frontier : ∀ w ∈ graphKeys g, w ∉ unv → ∀ v ∈ unv, g.edge w v = true →
    dist v ≤ dist w + (g.cost w v : WithTop ℚ)

theorem dijkInv_init (g : RoutingGraph) (src : ℕ) (hsrc : src ∈ graphKeys g) :
    DijkInv g src (fun v => if v = src then 0 else ⊤) (fun _ => none) (graphKeys g) := by
  refine ⟨Finset.Subset.refl _, by simp, rfl, ?_, ?_, ?_, ?_, ?_, ?_, ?_⟩
  · intro v
    by_cases h : v = src <;> simp [h]
  · intro v hv
    by_cases h : v = src
    · exact h ▸ hsrc
    · simp [h] at hv
  · intro v hv hvs
    simp [hvs] at hv
  · intro v u h
    exact Option.noConfusion h
  · intro v hv hnv
    exact absurd hv hnv
  · intro v hv hnv q hq
    exact absurd hv hnv
  · intro w hw hnw
    exact absurd hw hnw

/-- Frontier bound: a path that stays visited until its last node `y` (which
is unvisited) costs at least `dist y`. -/
theorem DijkInv.frontier_path {g : RoutingGraph} {src : ℕ} {dist : ℕ → WithTop ℚ}
    {prev : ℕ → Option ℕ} {unv : Finset ℕ} (inv : DijkInv g src dist prev unv)
    (hK : EdgesInKeys g) {p : List ℕ} {y : ℕ} (hp : IsPath g src p y)
    (hdrop : ∀ w ∈ p.dropLast, w ∉ unv) (hy : y ∈ unv) :
    dist y ≤ (pathCost g p : WithTop ℚ) := by
  rcases List.eq_nil_or_concat p with rfl | ⟨q, w, rfl⟩
  · cases hp
  · rw [List.concat_eq_append] at hp hdrop ⊢
    have hw : w = y := hp.last_eq
    subst hw
    rw [List.dropLast_concat] at hdrop
    rcases List.eq_nil_or_concat q with rfl | ⟨q', x, rfl⟩
    · simp only [List.nil_append] at hp ⊢
      obtain ⟨rfl, -⟩ := hp.single_inv
      rw [inv.dist_src, pathCost_single]
      simp
    · rw [List.concat_eq_append] at hp hdrop ⊢
      simp only [List.append_assoc, List.cons_append, List.nil_append] at hp ⊢
      obtain ⟨hp1, hp2, hcost⟩ := IsPath.split q' x [w] hp
      obtain ⟨-, hxw, -⟩ := hp2.cons_cons_inv
      have hxunv : x ∉ unv := hdrop x (by simp)
      have hxkeys : x ∈ graphKeys g := (hK x w hxw).1
      have hx_opt := inv.visited_opt x hxkeys hxunv _ hp1
      have hfront := inv.frontier x hxkeys hxunv w hy hxw
      calc dist w ≤ dist x + (g.cost x w : WithTop ℚ) := hfront
        _ ≤ (pathCost g (q' ++ [x]) : WithTop ℚ) + (g.cost x w : WithTop ℚ) :=
            add_le_add_right hx_opt _
        _ = ((pathCost g (q' ++ [x]) + g.cost x w : ℚ) : WithTop ℚ) :=
            (WithTop.coe_add _ _).symm
        _ = (pathCost g (q' ++ x :: [w]) : WithTop ℚ) := by
            rw [hcost, pathCost_cons2, pathCost_single]
            norm_num

/-- When `u` minimises `dist` over the unvisited set, `dist u` is a lower
bound on the cost of every path from the source to `u`. -/
theorem DijkInv.argmin_opt {g : RoutingGraph} {src : ℕ} {dist : ℕ → WithTop ℚ}
    {prev : ℕ → Option ℕ} {unv : Finset ℕ} (inv : DijkInv g src dist prev unv)
    (hK : EdgesInKeys g) (hpos : PosWeights g) {u : ℕ} (hu : u ∈ unv)
    (humin : ∀ w ∈ unv, dist u ≤ dist w) {q : List ℕ} (hq : IsPath g src q u) :
    dist u ≤ (pathCost g q : WithTop ℚ) := by
  have hex : ∃ y ∈ q, y ∈ unv := ⟨u, hq.last_mem, hu⟩
  obtain ⟨q₁, y, q₂, rfl, hyunv, hq₁⟩ := exists_first_mem_split q hex
  obtain ⟨hp1, hp2, hcost⟩ := IsPath.split q₁ y q₂ hq
  have hdrop : ∀ w ∈ (q₁ ++ [y]).dropLast, w ∉ unv := by
    rw [List.dropLast_concat]
    exact hq₁
  have hy := inv.frontier_path hK hp1 hdrop hyunv
  have hsuffix : 0 ≤ pathCost g (y :: q₂) := pathCost_nonneg hpos hp2
  calc dist u ≤ dist y := humin y hyunv
    _ ≤ (pathCost g (q₁ ++ [y]) : WithTop ℚ) := hy
    _ ≤ ((pathCost g (q₁ ++ [y]) + pathCost g (y :: q₂) : ℚ) : WithTop ℚ) :=
        WithTop.coe_le_coe.mpr (by linarith)
    _ = (pathCost g (q₁ ++ y :: q₂) : WithTop ℚ) := by rw [hcost]

/-- Settling the minimum-distance unvisited node `u` and relaxing its
unvisited neighbours preserves the loop invariant. -/
theorem DijkInv.step {g : RoutingGraph} {src : ℕ} {dist : ℕ → WithTop ℚ}
    {prev : ℕ → Option ℕ} {unv : Finset ℕ} (inv : DijkInv g src dist prev unv)
    (hK : EdgesInKeys g) (hpos : PosWeights g) {u : ℕ} (hu : u ∈ unv)
    (hufin : dist u ≠ ⊤) (humin : ∀ w ∈ unv, dist u ≤ dist w) :
    DijkInv g src (relaxDist g u (dist u) (unv.erase u) dist)
      (relaxPrev g u (dist u) (unv.erase u) dist prev) (unv.erase u) := by
  have hposc : ∀ v, g.edge u v = true → (0 : WithTop ℚ) < (g.cost u v : WithTop ℚ) := by
    intro v he
    exact_mod_cast hpos u v he
  have halt_nonneg : ∀ v, g.edge u v = true → (0 : WithTop ℚ) ≤ dist u + (g.cost u v : WithTop ℚ) :=
    fun v he => add_nonneg (inv.dist_nonneg u) (le_of_lt (hposc v he))
  have hcond : ∀ v, relaxDist g u (dist u) (unv.erase u) dist v =
      (if v ∈ unv.erase u ∧ g.edge u v = true ∧
          dist u + (g.cost u v : WithTop ℚ) < dist v
        then dist u + (g.cost u v : WithTop ℚ) else dist v) := fun _ => rfl
  have hpcond : ∀ v, relaxPrev g u (dist u) (unv.erase u) dist prev v =
      (if v ∈ unv.erase u ∧ g.edge u v = true ∧
          dist u + (g.cost u v : WithTop ℚ) < dist v
        then some u else prev v) := fun _ => rfl
  have hle : ∀ v, relaxDist g u (dist u) (unv.erase u) dist v ≤ dist v := by
    intro v
    rw [hcond]
    split
    · next h => exact le_of_lt h.2.2
    · exact le_refl _
  have hsame : ∀ v, v ∉ unv.erase u →
      relaxDist g u (dist u) (unv.erase u) dist v = dist v ∧
      relaxPrev g u (dist u) (unv.erase u) dist prev v = prev v := by
    intro v hv
    rw [hcond, hpcond, if_neg (fun h => hv h.1), if_neg (fun h => hv h.1)]
    exact ⟨rfl, rfl⟩
  have hu_not : u ∉ unv.erase u := Finset.not_mem_erase u unv
  have hmem_of : ∀ {v}, v ∈ unv.erase u → v ∈ unv := fun hv => Finset.mem_of_mem_erase hv
  have hnot_of : ∀ {v}, v ∉ unv → v ∉ unv.erase u := fun hv h => hv (hmem_of h)
  have hu_opt : ∀ q, IsPath g src q u → dist u ≤ (pathCost g q : WithTop ℚ) :=
    fun q hq => inv.argmin_opt hK hpos hu humin hq
  refine ⟨?_, ?_, ?_, ?_, ?_, ?_, ?_, ?_, ?_, ?_⟩
  · exact Finset.Subset.trans (Finset.erase_subset u unv) inv.unv_sub
  · rw [hcond]
    rw [if_neg ?_]
    · exact inv.dist_src
    · rintro ⟨hmem, he, hlt⟩
      rw [inv.dist_src] at hlt
      exact absurd hlt (not_lt.mpr (halt_nonneg src he))
  · rw [hpcond]
    rw [if_neg ?_]
    · exact inv.prev_src
    · rintro ⟨hmem, he, hlt⟩
      rw [inv.dist_src] at hlt
      exact absurd hlt (not_lt.mpr (halt_nonneg src he))
  · intro v
    rw [hcond]
    split
    · next h => exact halt_nonneg v h.2.1
    · exact inv.dist_nonneg v
  · intro v hv
    rw [hcond] at hv
    by_cases h : v ∈ unv.erase u ∧ g.edge u v = true ∧
        dist u + (g.cost u v : WithTop ℚ) < dist v
    · exact inv.unv_sub (hmem_of h.1)
    · rw [if_neg h] at hv
      exact inv.fin_keys v hv
  · intro v hv hvs
    rw [hcond] at hv
    rw [hpcond]
    by_cases h : v ∈ unv.erase u ∧ g.edge u v = true ∧
        dist u + (g.cost u v : WithTop ℚ) < dist v
    · exact ⟨u, if_pos h⟩
    · rw [if_neg h] at hv
      rw [if_neg h]
      exact inv.fin_prev v hv hvs
  · intro v w hw
    rw [hpcond] at hw
    by_cases h : v ∈ unv.erase u ∧ g.edge u v = true ∧
        dist u + (g.cost u v : WithTop ℚ) < dist v
    · rw [if_pos h] at hw
      cases Option.some.inj hw
      refine ⟨h.2.1, hu_not, ?_, ?_⟩
      · rw [(hsame u hu_not).1]
        exact hufin
      · rw [hcond v, if_pos h, (hsame u hu_not).1]
    · rw [if_neg h] at hw
      obtain ⟨hedge, hwunv, hwfin, hdeq⟩ := inv.prev_spec v w hw
      refine ⟨hedge, hnot_of hwunv, ?_, ?_⟩
      · rw [(hsame w (hnot_of hwunv)).1]
        exact hwfin
      · rw [hcond v, if_neg h, (hsame w (hnot_of hwunv)).1]
        exact hdeq
  · intro v hvk hv
    by_cases hvu : v = u
    · subst hvu
      rw [(hsame v hu_not).1]
      exact hufin
    · have hvunv : v ∉ unv := fun hmem => hv (Finset.mem_erase.mpr ⟨hvu, hmem⟩)
      rw [(hsame v (hnot_of hvunv)).1]
      exact inv.visited_fin v hvk hvunv
  · intro v hvk hv q hq
    by_cases hvu : v = u
    · subst hvu
      rw [(hsame v hu_not).1]
      exact hu_opt q hq
    · have hvunv : v ∉ unv := fun hmem => hv (Finset.mem_erase.mpr ⟨hvu, hmem⟩)
      rw [(hsame v (hnot_of hvunv)).1]
      exact inv.visited_opt v hvk hvunv q hq
  · intro w hwk hw v hv hedge
    by_cases hwu : w = u
    · subst hwu
      rw [(hsame w hu_not).1]
      rw [hcond v]
      by_cases h : v ∈ unv.erase w ∧ g.edge w v = true ∧
          dist w + (g.cost w v : WithTop ℚ) < dist v
      · rw [if_pos h]
      · rw [if_neg h]
        have : ¬ (dist w + (g.cost w v : WithTop ℚ) < dist v) := fun hlt => h ⟨hv, hedge, hlt⟩
        exact not_lt.mp this
    · have hwunv : w ∉ unv := fun hmem => hw (Finset.mem_erase.mpr ⟨hwu, hmem⟩)
      have hfront := inv.frontier w hwk hwunv v (hmem_of hv) hedge
      rw [(hsame w (hnot_of hwunv)).1]
      exact le_trans (hle v) hfront

theorem dijkstraLoop_inv (g : RoutingGraph) (dest src : ℕ) (hK : EdgesInKeys g)
    (hpos : PosWeights g) :
    ∀ (fuel : ℕ) (dist : ℕ → WithTop ℚ) (prev : ℕ → Option ℕ) (unv : Finset ℕ),
      DijkInv g src dist prev unv →
      DijkInv g src (dijkstraLoop g dest fuel dist prev unv).1
        (dijkstraLoop g dest fuel dist prev unv).2.1
        (dijkstraLoop g dest fuel dist prev unv).2.2 := by
  intro fuel
  induction fuel with
  | zero => intro dist prev unv h; exact h
  | succ fuel ih =>
    intro dist prev unv h
    cases hsel : selectMin dist unv with
    | none =>
      simp only [dijkstraLoop, hsel]
      exact h
    | some u =>
      by_cases hud : u = dest
      · simp only [dijkstraLoop, hsel, if_pos hud]
        exact h
      · obtain ⟨humem, hufin, humin⟩ := selectMin_some hsel
        simp only [dijkstraLoop, hsel, if_neg hud]
        exact ih _ _ _ (h.step hK hpos humem hufin humin)

theorem dijkstraLoop_post (g : RoutingGraph) (dest : ℕ) :
    ∀ (fuel : ℕ) (dist : ℕ → WithTop ℚ) (prev : ℕ → Option ℕ) (unv : Finset ℕ),
      dest ∈ unv → unv.card ≤ fuel →
      dest ∈ (dijkstraLoop g dest fuel dist prev unv).2.2 ∧
      (selectMin (dijkstraLoop g dest fuel dist prev unv).1
          (dijkstraLoop g dest fuel dist prev unv).2.2 = none ∨
        selectMin (dijkstraLoop g dest fuel dist prev unv).1
          (dijkstraLoop g dest fuel dist prev unv).2.2 = some dest) := by
  intro fuel
  induction fuel with
  | zero =>
    intro dist prev unv hdest hcard
    have := Finset.card_pos.mpr ⟨dest, hdest⟩
    omega
  | succ fuel ih =>
    intro dist prev unv hdest hcard
    cases hsel : selectMin dist unv with
    | none =>
      simp only [dijkstraLoop, hsel]
      exact ⟨hdest, Or.inl trivial⟩
    | some u =>
      by_cases hud : u = dest
      · simp only [dijkstraLoop, hsel, if_pos hud]
        exact ⟨hdest, Or.inr (by rw [hud])⟩
      · obtain ⟨humem, -, -⟩ := selectMin_some hsel
        simp only [dijkstraLoop, hsel, if_neg hud]
        apply ih
        · exact Finset.mem_erase.mpr ⟨fun h => hud h.symm, hdest⟩
        · rw [Finset.card_erase_of_mem humem]
          have := Finset.card_pos.mpr ⟨dest, hdest⟩
          omega

/-- Path reconstruction is correct: under the invariant, following `prev` from
any finite-distance node yields (after reversal) a path from the source whose
cost is exactly the recorded distance. -/
theorem trace_spec {g : RoutingGraph} {src : ℕ} {dist : ℕ → WithTop ℚ}
    {prev : ℕ → Option ℕ} {unv : Finset ℕ} (inv : DijkInv g src dist prev unv)
    (hpos : PosWeights g) :
    ∀ (fuel v : ℕ), dist v ≠ ⊤ →
      ((graphKeys g).filter (fun w => dist w < dist v)).card < fuel →
      IsPath g src ((tracePath prev fuel v).reverse) v ∧
        (pathCost g ((tracePath prev fuel v).reverse) : WithTop ℚ) = dist v := by
  intro fuel
  induction fuel with
  | zero =>
    intro v hv hcard
    exact absurd hcard (Nat.not_lt_zero _)
  | succ fuel ih =>
    intro v hv hcard
    cases hpv : prev v with
    | none =>
      have hvsrc : v = src := by
        by_contra hne
        obtain ⟨u, hu⟩ := inv.fin_prev v hv hne
        rw [hpv] at hu
        cases hu
      subst hvsrc
      simp only [tracePath, hpv, List.reverse_cons, List.reverse_nil, List.nil_append]
      refine ⟨IsPath.single v, ?_⟩
      rw [pathCost_single, inv.dist_src]
      exact WithTop.coe_zero
    | some u =>
      obtain ⟨hedge, hunv, hufin, hdveq⟩ := inv.prev_spec v u hpv
      have hukeys := inv.fin_keys u hufin
      have hdu_lt : dist u < dist v := by
        obtain ⟨a, ha⟩ := WithTop.ne_top_iff_exists.mp hufin
        rw [hdveq, ← ha]
        have hc := hpos u v hedge
        rw [show ((a : WithTop ℚ) + (g.cost u v : WithTop ℚ)) =
            ((a + g.cost u v : ℚ) : WithTop ℚ) from (WithTop.coe_add _ _).symm]
        exact WithTop.coe_lt_coe.mpr (by linarith)
      have hcard_u : ((graphKeys g).filter (fun w => dist w < dist u)).card <
          ((graphKeys g).filter (fun w => dist w < dist v)).card := by
        apply Finset.card_lt_card
        rw [Finset.ssubset_iff_of_subset]
        · exact ⟨u, Finset.mem_filter.mpr ⟨hukeys, hdu_lt⟩,
            fun hc => absurd (Finset.mem_filter.mp hc).2 (lt_irrefl _)⟩
        · intro w hw
          obtain ⟨hwk, hwlt⟩ := Finset.mem_filter.mp hw
          exact Finset.mem_filter.mpr ⟨hwk, lt_trans hwlt hdu_lt⟩
      obtain ⟨hpath, hcost⟩ := ih u hufin (by omega)
      simp only [tracePath, hpv, List.reverse_cons]
      refine ⟨hpath.append_edge hedge, ?_⟩
      rw [pathCost_append_edge hpath, WithTop.coe_add, hcost]
      exact hdveq.symm

/-- Full contract of the Dijkstra path solver over any graph with positive
edge weights whose edges stay inside the key set: the result is empty exactly
when an endpoint is missing from the graph or no path exists, and a nonempty
result is a least-cost path `[src, ..., dest]`. -/
theorem CalculatePath_spec (g : RoutingGraph) (hK : EdgesInKeys g) (hpos : PosWeights g)
    (src dest : ℕ) :
    (CalculatePath g src dest = [] ↔
      ¬(src ∈ graphKeys g ∧ dest ∈ graphKeys g ∧ ∃ q, IsPath g src q dest)) ∧
    (CalculatePath g src dest ≠ [] →
      IsPath g src (CalculatePath g src dest) dest ∧
      ∀ q, IsPath g src q dest →
        pathCost g (CalculatePath g src dest) ≤ pathCost g q) := by
  by_cases hmem : src ∈ graphKeys g ∧ dest ∈ graphKeys g
  case neg =>
    have hempty : CalculatePath g src dest = [] := by
      simp only [CalculatePath]
      rw [if_neg hmem]
    rw [hempty]
    refine ⟨⟨fun _ hc => hmem ⟨hc.1, hc.2.1⟩, fun _ => rfl⟩, fun h => absurd rfl h⟩
  case pos =>
    obtain ⟨hsrc, hdest⟩ := hmem
    have hinv := dijkstraLoop_inv g dest src hK hpos (graphKeys g).card
      (fun v => if v = src then 0 else ⊤) (fun _ => none) (graphKeys g)
      (dijkInv_init g src hsrc)
    obtain ⟨hdmem, hsel⟩ := dijkstraLoop_post g dest (graphKeys g).card
      (fun v => if v = src then 0 else ⊤) (fun _ => none) (graphKeys g) hdest le_rfl
    have hcalc : CalculatePath g src dest =
        (if (dijkstraLoop g dest (graphKeys g).card
              (fun v => if v = src then 0 else ⊤) (fun _ => none) (graphKeys g)).1 dest = ⊤
          then []
          else (tracePath (dijkstraLoop g dest (graphKeys g).card
              (fun v => if v = src then 0 else ⊤) (fun _ => none) (graphKeys g)).2.1
            ((graphKeys g).card + 1) dest).reverse) := by
      simp only [CalculatePath]
      rw [if_pos ⟨hsrc, hdest⟩]
    set r := dijkstraLoop g dest (graphKeys g).card
      (fun v => if v = src then 0 else ⊤) (fun _ => none) (graphKeys g) with hr
    cases hsel with
    | inl hnone =>
      have hdtop : r.1 dest = ⊤ := selectMin_none hnone dest hdmem
      have hempty : CalculatePath g src dest = [] := by rw [hcalc, if_pos hdtop]
      have hnopath : ¬ ∃ q, IsPath g src q dest := by
        rintro ⟨q, hq⟩
        have hex : ∃ y ∈ q, y ∈ r.2.2 := ⟨dest, hq.last_mem, hdmem⟩
        obtain ⟨q₁, y, q₂, rfl, hyunv, hq₁⟩ := exists_first_mem_split q hex
        obtain ⟨hp1, -, -⟩ := IsPath.split q₁ y q₂ hq
        have hdrop : ∀ w ∈ (q₁ ++ [y]).dropLast, w ∉ r.2.2 := by
          rw [List.dropLast_concat]
          exact hq₁
        have hbound := hinv.frontier_path hK hp1 hdrop hyunv
        rw [selectMin_none hnone y hyunv] at hbound
        exact WithTop.coe_ne_top (top_le_iff.mp hbound)
      rw [hempty]
      refine ⟨⟨fun _ hc => hnopath hc.2.2, fun _ => rfl⟩, fun h => absurd rfl h⟩
    | inr hsome =>
      obtain ⟨hdmem', hdfin, hdmin⟩ := selectMin_some hsome
      have heq : CalculatePath g src dest =
          (tracePath r.2.1 ((graphKeys g).card + 1) dest).reverse := by
        rw [hcalc, if_neg hdfin]
      have hne : CalculatePath g src dest ≠ [] := by
        rw [heq]
        intro habs
        exact tracePath_ne_nil r.2.1 (graphKeys g).card dest
          (List.reverse_eq_nil_iff.mp habs)
      have hcard : ((graphKeys g).filter (fun w => r.1 w < r.1 dest)).card <
          (graphKeys g).card + 1 := by
        have := Finset.card_filter_le (graphKeys g) (fun w => r.1 w < r.1 dest)
        omega
      obtain ⟨hpath, hcost⟩ := trace_spec hinv hpos ((graphKeys g).card + 1) dest hdfin hcard
      have hopt : ∀ q, IsPath g src q dest → r.1 dest ≤ (pathCost g q : WithTop ℚ) :=
        fun q hq => hinv.argmin_opt hK hpos hdmem' hdmin hq
      constructor
      · constructor
        · intro habs
          exact absurd habs hne
        · intro hcon
          exact absurd ⟨hsrc, hdest, _, heq ▸ hpath⟩ hcon
      · intro _hne
        rw [heq]
        refine ⟨hpath, ?_⟩
        intro q hq
        have h1 := hopt q hq
        rw [← hcost] at h1
        exact WithTop.coe_le_coe.mp h1

theorem distSq_comm (p q : ℚ × ℚ × ℚ) : distSq p q = distSq q p := by
  unfold distSq
  ring

theorem distSq_nonneg (p q : ℚ × ℚ × ℚ) : 0 ≤ distSq p q := by
  unfold distSq
  positivity

theorem buildGraph_edge_iff (n : ℕ) (pos : ℕ → ℚ × ℚ × ℚ) (st : LedgerState)
    (maxRange dsnr alpha beta : ℚ) (bh : Finset ℕ) (ub : Bool) (i j : ℕ) :
    (BuildGraph n pos st maxRange bh ub dsnr alpha beta).edge i j = true ↔
      (i < n ∧ j < n ∧ i ≠ j ∧ 0 < maxRange ∧ distSq (pos i) (pos j) < maxRange^2) := by
  simp [BuildGraph, inRangeB, and_assoc]

theorem buildGraph_edgesInKeys (n : ℕ) (pos : ℕ → ℚ × ℚ × ℚ) (st : LedgerState)
    (maxRange dsnr alpha beta : ℚ) (bh : Finset ℕ) (ub : Bool) :
    EdgesInKeys (BuildGraph n pos st maxRange bh ub dsnr alpha beta) := by
  intro u v he
  rw [buildGraph_edge_iff] at he
  obtain ⟨hu, hv, huv, hr, hd⟩ := he
  constructor
  · refine Finset.mem_filter.mpr ⟨Finset.mem_range.mpr hu, v, Finset.mem_range.mpr hv, ?_⟩
    rw [buildGraph_edge_iff]
    exact ⟨hu, hv, huv, hr, hd⟩
  · refine Finset.mem_filter.mpr ⟨Finset.mem_range.mpr hv, u, Finset.mem_range.mpr hu, ?_⟩
    rw [buildGraph_edge_iff]
    refine ⟨hv, hu, Ne.symm huv, hr, ?_⟩
    rw [distSq_comm]
    exact hd

theorem GetSnr_pos (st : LedgerState) (i j : ℕ) : 0 < GetSnr st i j := by
  unfold GetSnr
  cases h : ledgerFind st.ledger (MakeKey i j) with
  | none => norm_num
  | some m =>
    by_cases hm : 0 < m.movingAvgSnr
    · simp [hm]
    · norm_num [hm]

theorem linkCost_pos (st : LedgerState) (ub : Bool) (dsnr alpha beta : ℚ) (i j : ℕ)
    (hα : 0 ≤ alpha) (hβ : 0 < beta) : 0 < linkCost st ub dsnr alpha beta i j := by
  simp only [linkCost]
  cases ub with
  | false => norm_num
  | true =>
    rw [if_pos rfl]
    have hsnr0 := GetSnr_pos st i j
    have hsnr : 0 < (if GetSnr st i j ≤ 0 then dsnr else GetSnr st i j) := by
      rw [if_neg (not_le.mpr hsnr0)]
      exact hsnr0
    have htrust_gen : ∀ t : ℚ, (3:ℚ)/10 ≤ (if t < 3/10 then (3:ℚ)/10 else t) := by
      intro t
      by_cases ht : t < 3/10
      · rw [if_pos ht]
      · rw [if_neg ht]
        exact not_lt.mp ht
    have htrust := htrust_gen (if GetTrust st i j ≤ 0 then 1 else GetTrust st i j)
    have h1 : 0 ≤ alpha / (if GetSnr st i j ≤ 0 then dsnr else GetSnr st i j) :=
      div_nonneg hα (le_of_lt hsnr)
    have h2 : 0 < beta /
        (if (if GetTrust st i j ≤ 0 then 1 else GetTrust st i j) < 3/10 then (3:ℚ)/10
          else (if GetTrust st i j ≤ 0 then 1 else GetTrust st i j)) :=
      div_pos hβ (lt_of_lt_of_le (by norm_num) htrust)
    linarith

theorem buildGraph_posWeights (n : ℕ) (pos : ℕ → ℚ × ℚ × ℚ) (st : LedgerState)
    (maxRange dsnr alpha beta : ℚ) (bh : Finset ℕ) (ub : Bool)
    (hα : 0 ≤ alpha) (hβ : 0 < beta) :
    PosWeights (BuildGraph n pos st maxRange bh ub dsnr alpha beta) :=
  fun u v _ => linkCost_pos st ub dsnr alpha beta u v hα hβ

theorem buildGraph_posWeights_baseline (n : ℕ) (pos : ℕ → ℚ × ℚ × ℚ) (st : LedgerState)
    (maxRange dsnr alpha beta : ℚ) (bh : Finset ℕ) :
    PosWeights (BuildGraph n pos st maxRange bh false dsnr alpha beta) := by
  intro u v _
  simp [BuildGraph, linkCost]

/-- C4: Path solver contract: on every graph `BuildGraph` produces (with
nonnegative alpha and positive beta, as at runtime where alpha = 1 and
beta = 500), `CalculatePath` returns an ordered node sequence
`[src, ..., dest]` of least cost under the edge-weight model, and returns the
empty sequence exactly when the source or the destination is absent from the
graph or no path exists. -/
theorem C4_path_solver (n : ℕ) (pos : ℕ → ℚ × ℚ × ℚ) (st : LedgerState)
    (maxRange dsnr alpha beta : ℚ) (bh : Finset ℕ) (ub : Bool) (src dest : ℕ)
    (hα : 0 ≤ alpha) (hβ : 0 < beta) :
    (CalculatePath (BuildGraph n pos st maxRange bh ub dsnr alpha beta) src dest = [] ↔
      ¬(src ∈ graphKeys (BuildGraph n pos st maxRange bh ub dsnr alpha beta) ∧
        dest ∈ graphKeys (BuildGraph n pos st maxRange bh ub dsnr alpha beta) ∧
        ∃ q, IsPath (BuildGraph n pos st maxRange bh ub dsnr alpha beta) src q dest)) ∧
    (CalculatePath (BuildGraph n pos st maxRange bh ub dsnr alpha beta) src dest ≠ [] →
      IsPath (BuildGraph n pos st maxRange bh ub dsnr alpha beta) src
        (CalculatePath (BuildGraph n pos st maxRange bh ub dsnr alpha beta) src dest) dest ∧
      ∀ q, IsPath (BuildGraph n pos st maxRange bh ub dsnr alpha beta) src q dest →
        pathCost (BuildGraph n pos st maxRange bh ub dsnr alpha beta)
          (CalculatePath (BuildGraph n pos st maxRange bh ub dsnr alpha beta) src dest) ≤
        pathCost (BuildGraph n pos st maxRange bh ub dsnr alpha beta) q) :=
  CalculatePath_spec _ (buildGraph_edgesInKeys n pos st maxRange dsnr alpha beta bh ub)
    (buildGraph_posWeights n pos st maxRange dsnr alpha beta bh ub hα hβ) src dest

/-- Two nodes one unit apart, radio range 2, Proposed mode with the runtime
constants. -/
def posEx : ℕ → ℚ × ℚ × ℚ := fun i => ((i : ℚ), 0, 0)

def gEx : RoutingGraph := BuildGraph 2 posEx LedgerState.init 2 ∅ true 20 1 500

/-- Witness for C4 at the concrete two-node graph. -/
theorem C4_path_solver_witness :
    (CalculatePath gEx 0 1 = [] ↔
      ¬(0 ∈ graphKeys gEx ∧ 1 ∈ graphKeys gEx ∧ ∃ q, IsPath gEx 0 q 1)) ∧
    (CalculatePath gEx 0 1 ≠ [] →
      IsPath gEx 0 (CalculatePath gEx 0 1) 1 ∧
      ∀ q, IsPath gEx 0 q 1 → pathCost gEx (CalculatePath gEx 0 1) ≤ pathCost gEx q) :=
  C4_path_solver 2 posEx LedgerState.init 2 20 1 500 ∅ true 0 1 (by norm_num) (by norm_num)

theorem IsPath_of_edge_eq {g g' : RoutingGraph} (h : g.edge = g'.edge) {s d : ℕ}
    {p : List ℕ} (hp : IsPath g s p d) : IsPath g' s p d := by
  induction hp with
  | single v => exact IsPath.single v
  | cons hab hp ih => exact IsPath.cons (h ▸ hab) ih

/-- C5: Connectivity preservation across modes: `BuildGraph` includes an edge
(i, j) exactly when both ids are in range of the container, i ≠ j, and the
Euclidean distance is strictly below `maxRange` — in both Proposed and
Baseline modes, for any ledger and any blackhole set; consequently whenever
Baseline mode finds a path between s and d, Proposed mode on the same
positions also finds one. -/
theorem C5_connectivity (n : ℕ) (pos : ℕ → ℚ × ℚ × ℚ) (stB stP : LedgerState)
    (maxRange dsnrB dsnrP alphaB betaB alphaP betaP : ℚ) (bhB bhP : Finset ℕ)
    (s d : ℕ) (hα : 0 ≤ alphaP) (hβ : 0 < betaP) :
    (∀ (st' : LedgerState) (bh' : Finset ℕ) (ub : Bool) (dsnr' a' b' : ℚ) (i j : ℕ),
      (BuildGraph n pos st' maxRange bh' ub dsnr' a' b').edge i j = true ↔
        (i < n ∧ j < n ∧ i ≠ j ∧
          Real.sqrt ((distSq (pos i) (pos j) : ℚ) : ℝ) < ((maxRange : ℚ) : ℝ))) ∧
    (CalculatePath (BuildGraph n pos stB maxRange bhB false dsnrB alphaB betaB) s d ≠ [] →
      CalculatePath (BuildGraph n pos stP maxRange bhP true dsnrP alphaP betaP) s d ≠ []) := by
  constructor
  · intro st' bh' ub dsnr' a' b' i j
    rw [buildGraph_edge_iff]
    constructor
    · rintro ⟨hi, hj, hij, hr, hd⟩
      refine ⟨hi, hj, hij, ?_⟩
      have hrr : (0:ℝ) < (maxRange : ℝ) := by exact_mod_cast hr
      rw [Real.sqrt_lt' hrr]
      exact_mod_cast hd
    · rintro ⟨hi, hj, hij, hs⟩
      have hr : (0:ℝ) < (maxRange : ℝ) := lt_of_le_of_lt (Real.sqrt_nonneg _) hs
      have hrq : 0 < maxRange := by exact_mod_cast hr
      refine ⟨hi, hj, hij, hrq, ?_⟩
      have hlt := (Real.sqrt_lt' hr).mp hs
      exact_mod_cast hlt
  · intro hB
    have hKB := buildGraph_edgesInKeys n pos stB maxRange dsnrB alphaB betaB bhB false
    have hposB := buildGraph_posWeights_baseline n pos stB maxRange dsnrB alphaB betaB bhB
    have hKP := buildGraph_edgesInKeys n pos stP maxRange dsnrP alphaP betaP bhP true
    have hposP := buildGraph_posWeights n pos stP maxRange dsnrP alphaP betaP bhP true hα hβ
    have hspecB := (CalculatePath_spec _ hKB hposB s d).1
    have hspecP := (CalculatePath_spec _ hKP hposP s d).1
    have hX : s ∈ graphKeys (BuildGraph n pos stB maxRange bhB false dsnrB alphaB betaB) ∧
        d ∈ graphKeys (BuildGraph n pos stB maxRange bhB false dsnrB alphaB betaB) ∧
        ∃ q, IsPath (BuildGraph n pos stB maxRange bhB false dsnrB alphaB betaB) s q d := by
      by_contra hX
      exact hB (hspecB.mpr hX)
    obtain ⟨hs, hd, q, hq⟩ := hX
    intro hP
    exact (hspecP.mp hP) ⟨hs, hd, q,
      IsPath_of_edge_eq
        (show (BuildGraph n pos stB maxRange bhB false dsnrB alphaB betaB).edge =
            (BuildGraph n pos stP maxRange bhP true dsnrP alphaP betaP).edge from rfl) hq⟩

/-- Witness for C5 at the concrete two-node configuration. -/
theorem C5_connectivity_witness :
    (∀ (st' : LedgerState) (bh' : Finset ℕ) (ub : Bool) (dsnr' a' b' : ℚ) (i j : ℕ),
      (BuildGraph 2 posEx st' 2 bh' ub dsnr' a' b').edge i j = true ↔
        (i < 2 ∧ j < 2 ∧ i ≠ j ∧
          Real.sqrt ((distSq (posEx i) (posEx j) : ℚ) : ℝ) < (((2:ℚ) : ℝ)))) ∧
    (CalculatePath (BuildGraph 2 posEx LedgerState.init 2 ∅ false 20 1 500) 0 1 ≠ [] →
      CalculatePath (BuildGraph 2 posEx LedgerState.init 2 ∅ true 20 1 500) 0 1 ≠ []) :=
  C5_connectivity 2 posEx LedgerState.init LedgerState.init 2 20 20 1 500 1 500 ∅ ∅ 0 1
    (by norm_num) (by norm_num)

end SixG
